import Mathlib

/-!
# gravity: the mongo oplog input plugin and the binlog tailer's tested surface

Shallow embedding of `pkg/inputs/mongooplog/input.go` (the plugin's
`Configure`, `Start`, `Done` and `Close`, with the goroutines they spawn run by
an explicit scheduler) and of the objects exercised by
`pkg/inputs/mysqlstream/binlog_tailer_test.go` (`fakeDB`, `fakeMsgSubmitter`,
`fixGTID`, the tailer's record loop).
-/

/-! # Definitions -/

/-- Go `error` values as the plugin produces them: `errors.Errorf`, `errors.Trace`
around a cause, or an error handed back by a collaborator. -/
inductive GoError where
  | Errorf (msg : String)
  | Trace (cause : GoError)
  | external (code : Nat)
deriving DecidableEq, Repr

namespace mongooplog

/-! ## Data model of `input.go` -/

/-- The type `config.MongoConnConfig`; the plugin reads only `Host`. -/
structure MongoConnConfig where
  Host : String
deriving DecidableEq, Repr

/-- The type `config.MongoPosition` (an oplog timestamp); also what
`position_store.Position` carries for this plugin. -/
structure MongoPosition where
  ts : Nat
deriving DecidableEq, Repr

/-- The type `config.GtmConfig`, never inspected by the plugin. -/
structure GtmConfig where
  tag : Nat
deriving DecidableEq, Repr

/-- The struct `PluginConfig`; each field is a Go pointer, `none` is `nil`. -/
structure PluginConfig where
  Source : Option MongoConnConfig
  StartPosition : Option MongoPosition
  GtmConfig : Option GtmConfig
deriving DecidableEq, Repr

/-- A `core.Emitter` handle. -/
structure Emitter where
  id : Nat
deriving DecidableEq, Repr

/-- A `*mgo.Session` handle. -/
structure Session where
  id : Nat
deriving DecidableEq, Repr

/-- A `context.Context` made by `context.WithCancel`, named by its allocation number. -/
structure Context where
  id : Nat
deriving DecidableEq, Repr

/-- The `context.CancelFunc` returned together with a context: calling it cancels
that context. -/
structure CancelFunc where
  target : Context
deriving DecidableEq, Repr

/-- A `position_store.MongoPositionStore` handle. -/
structure MongoPositionStore where
  id : Nat
deriving DecidableEq, Repr

/-- The interface `position_store.PositionStore` with its dynamic type: the
assertion `.(position_store.MongoPositionStore)` succeeds only on `mongo`. -/
inductive PositionStore where
  | mongo (s : MongoPositionStore)
  | other (id : Nat)
deriving DecidableEq, Repr

/-- An `*OplogChecker`, represented by the arguments `NewOplogChecker` was given
(`session, cfg.Source.Host, plugin.pipelineName, plugin.ctx`). -/
structure OplogChecker where
  session : Session
  sourceHost : String
  pipelineName : String
  ctx : Context
deriving DecidableEq, Repr

/-- The struct `OplogTailerOpt` as `Start` fills it. -/
structure OplogTailerOpt where
  oplogChecker : OplogChecker
  session : Session
  gtmConfig : Option GtmConfig
  emitter : Emitter
  ctx : Context
  sourceHost : String
  timestampStore : MongoPositionStore
  pipelineName : String
deriving DecidableEq, Repr

/-- An `*OplogTailer`, represented by the options `NewOplogTailer` was given. -/
structure OplogTailer where
  opts : OplogTailerOpt
deriving DecidableEq, Repr

/-- State of a `sync.Once`: not yet used, its function running (other callers
of `Do` block), or done. -/
inductive OnceState where
  | fresh
  | running
  | done
deriving DecidableEq, Repr

/-- The struct `mongoInputPlugin`. `wg` is the `sync.WaitGroup` counter. -/
structure mongoInputPlugin where
  pipelineName : String
  cfg : Option PluginConfig
  emitter : Option Emitter
  wg : Nat
  ctx : Option Context
  cancel : Option CancelFunc
  mongoSession : Option Session
  oplogTailer : Option OplogTailer
  oplogChecker : Option OplogChecker
  positionStore : Option PositionStore
  closeOnce : OnceState
deriving DecidableEq, Repr

/-- The zero value `&mongoInputPlugin{}` that `init` registers. -/
def mongoInputPlugin.zero : mongoInputPlugin :=
  { pipelineName := "", cfg := none, emitter := none, wg := 0, ctx := none,
    cancel := none, mongoSession := none, oplogTailer := none,
    oplogChecker := none, positionStore := none, closeOnce := .fresh }

/-- The method `Configure(pipelineName, data)`: the plugin afterwards and the returned error
(`none` is `nil`). `Decode` is `mapstructure.Decode` into a zero `PluginConfig`. -/
def Configure {Data : Type} (Decode : Data → Except GoError PluginConfig)
    (plugin : mongoInputPlugin) (pipelineName : String) (data : Data) :
    mongoInputPlugin × Option GoError :=
  let plugin := { plugin with pipelineName := pipelineName }
  match Decode data with
  | .error err => (plugin, some (.Trace err))
  | .ok cfg =>
    match cfg.Source with
    | none => (plugin, some (.Errorf "no mongo source confgiured"))
    | some _ => ({ plugin with cfg := some cfg }, none)

/-! ## Goroutines and the world they run in -/

/-- Where a goroutine `func(x) { defer plugin.wg.Done(); x.Run() }` stands:
inside `Run`, `Run` returned with the deferred `wg.Done()` pending, or finished. -/
inductive TaskPc where
  | run
  | deferred
  | exited
deriving DecidableEq, Repr

/-- The two goroutines `Start` spawns. -/
inductive Goroutine where
  | runTailer (t : OplogTailer) (pc : TaskPc)
  | runChecker (c : OplogChecker) (pc : TaskPc)
deriving DecidableEq, Repr

/-- Where a caller of `Close` stands: at `closeOnce.Do`; inside the once-function
before `plugin.cancel()`; before `plugin.wg.Wait()`; blocked inside `Wait`;
before `plugin.mongoSession.Close()`; at the end of the once-function; returned. -/
inductive ClosePc where
  | enter
  | cancel
  | waitCall
  | waiting
  | closeSession
  | leave
  | returned
deriving DecidableEq, Repr

/-- Where the goroutine of `Done` stands: inside `plugin.Wait()`; before
`plugin.positionStore.Position()`; at `c <- v`; at `close(c)`; finished. -/
inductive DonePc where
  | wait
  | read
  | send (v : MongoPosition)
  | close
  | exited
deriving DecidableEq, Repr

/-- One call of `Done`: its goroutine and the channel `c` it made (the values
receivers have taken from it, and whether it is closed). -/
structure DoneCall where
  pc : DonePc
  delivered : List MongoPosition
  closed : Bool
deriving DecidableEq, Repr

/-- Everything the plugin's methods touch: the plugin, the contexts made and
cancelled, the goroutines, what the position store holds, the callers of `Close`
and `Done`, and counters of the calls `Close` makes. -/
structure World where
  plugin : mongoInputPlugin
  nextCtx : Nat
  cancelled : List Context
  goroutines : List Goroutine
  loopExited : List OplogTailer
  position : MongoPosition
  closers : List ClosePc
  dones : List DoneCall
  cancelCalls : Nat
  wgWaitCalls : Nat
  closedSessions : List Session
  panicked : Bool
deriving DecidableEq, Repr

/-- Outcome of a call: it returns, or the goroutine panics. -/
inductive Outcome (α : Type) where
  | ret (a : α)
  | panic
deriving DecidableEq, Repr

/-- The method `Start(emitter)`: the world afterwards and the returned error.
`CreateMongoSession` is `mongo.CreateMongoSession`. A nil `plugin.cfg`, a nil
`cfg.Source` at `cfg.Source.Host`, and a position store that is not a
`MongoPositionStore` panic. -/
def Start (CreateMongoSession : Option MongoConnConfig → Except GoError Session)
    (w : World) (emitter : Emitter) : Outcome (World × Option GoError) :=
  let ctx : Context := ⟨w.nextCtx⟩
  let plugin := { w.plugin with emitter := some emitter, ctx := some ctx, cancel := some ⟨ctx⟩ }
  let w := { w with plugin := plugin, nextCtx := w.nextCtx + 1 }
  match plugin.cfg with
  | none => .panic
  | some cfg =>
    match CreateMongoSession cfg.Source with
    | .error err => .ret (w, some (.Trace err))
    | .ok session =>
      let plugin := { plugin with mongoSession := some session }
      match cfg.Source with
      | none => .panic
      | some source =>
        let checker : OplogChecker :=
          { session := session, sourceHost := source.Host,
            pipelineName := plugin.pipelineName, ctx := ctx }
        match plugin.positionStore with
        | some (.mongo store) =>
          let tailerOpts : OplogTailerOpt :=
            { oplogChecker := checker, session := session, gtmConfig := cfg.GtmConfig,
              emitter := emitter, ctx := ctx, sourceHost := source.Host,
              timestampStore := store, pipelineName := plugin.pipelineName }
          let tailer : OplogTailer := ⟨tailerOpts⟩
          let plugin := { plugin with oplogTailer := some tailer, oplogChecker := some checker }
          let plugin := { plugin with wg := plugin.wg + 1 }
          let gs := w.goroutines ++ [Goroutine.runTailer tailer .run]
          let plugin := { plugin with wg := plugin.wg + 1 }
          let gs := gs ++ [Goroutine.runChecker checker .run]
          .ret ({ w with plugin := plugin, goroutines := gs }, none)
        | _ => .panic

/-- The call `plugin.wg.Done()`: decrements the counter; a negative counter panics. -/
def wgDone (w : World) : World :=
  if w.plugin.wg = 0 then { w with panicked := true }
  else { w with plugin := { w.plugin with wg := w.plugin.wg - 1 } }

/-- One step of goroutine `i` of `Start`: `Run` returns (for the tailer this is
the read loop exiting), then the deferred `plugin.wg.Done()` runs. `Run` may
return at any moment, cancelled or not. -/
def stepTask (w : World) (i : Nat) : Option World :=
  match w.goroutines[i]? with
  | some (.runTailer t .run) =>
    some { w with goroutines := w.goroutines.set i (.runTailer t .deferred),
                  loopExited := t :: w.loopExited }
  | some (.runTailer t .deferred) =>
    some (wgDone { w with goroutines := w.goroutines.set i (.runTailer t .exited) })
  | some (.runChecker c .run) =>
    some { w with goroutines := w.goroutines.set i (.runChecker c .deferred) }
  | some (.runChecker c .deferred) =>
    some (wgDone { w with goroutines := w.goroutines.set i (.runChecker c .exited) })
  | _ => none

/-- Modelled from the spec: `OplogTailer.Run` is defined with the tailer, outside
`input.go`; the spec has the Position "mutated only by the Tailer after a
successful emit", so the position store changes only by a step of a tailer
goroutine that is still inside `Run`. -/
def stepPut (w : World) (i : Nat) (p : MongoPosition) : Option World :=
  match w.goroutines[i]? with
  | some (.runTailer _ .run) => some { w with position := p }
  | _ => none

/-- One step of caller `i` of `Close`:
`plugin.closeOnce.Do(func() { plugin.cancel(); plugin.wg.Wait(); plugin.mongoSession.Close() })`.
`Do` runs the function for the first caller, blocks the others until it has
finished and is a no-op afterwards; `wg.Wait()` blocks until the counter is zero;
calling a nil `cancel` or closing a nil session panics. -/
def stepClose (w : World) (i : Nat) : Option World :=
  match w.closers[i]? with
  | some .enter =>
    match w.plugin.closeOnce with
    | .fresh => some { w with plugin := { w.plugin with closeOnce := .running },
                              closers := w.closers.set i .cancel }
    | .running => none
    | .done => some { w with closers := w.closers.set i .returned }
  | some .cancel =>
    match w.plugin.cancel with
    | none => some { w with panicked := true }
    | some f => some { w with cancelled := f.target :: w.cancelled,
                              cancelCalls := w.cancelCalls + 1,
                              closers := w.closers.set i .waitCall }
  | some .waitCall =>
    some { w with wgWaitCalls := w.wgWaitCalls + 1, closers := w.closers.set i .waiting }
  | some .waiting =>
    if w.plugin.wg = 0 then some { w with closers := w.closers.set i .closeSession } else none
  | some .closeSession =>
    match w.plugin.mongoSession with
    | none => some { w with panicked := true }
    | some s => some { w with closedSessions := s :: w.closedSessions,
                              closers := w.closers.set i .leave }
  | some .leave =>
    some { w with plugin := { w.plugin with closeOnce := .done },
                  closers := w.closers.set i .returned }
  | _ => none

/-- Modelled from the spec: `OplogTailer.Wait` is defined with the tailer, outside
`input.go`; the spec gives "Wait() (blocks until the read loop exits)", so a call
can return exactly when the tailer has left `Run`. -/
def OplogTailer.waitReturns (t : OplogTailer) (w : World) : Bool :=
  decide (t ∈ w.loopExited)

/-- The method `Done()`: makes the channel `c` and spawns the goroutine
`plugin.Wait(); c <- plugin.positionStore.Position(); close(c)`. -/
def Done (w : World) : World :=
  { w with dones := w.dones ++ [{ pc := .wait, delivered := [], closed := false }] }

/-- One step of the goroutine of call `i` of `Done`. `plugin.Wait()` is
`plugin.oplogTailer.Wait()`; the send on the unbuffered `c` completes by handing
the value to a receiver; a nil tailer, a nil position store and closing a closed
channel panic. -/
def stepDone (w : World) (i : Nat) : Option World :=
  match w.dones[i]? with
  | none => none
  | some d =>
    match d.pc with
    | .wait =>
      match w.plugin.oplogTailer with
      | none => some { w with panicked := true }
      | some t =>
        if t.waitReturns w then some { w with dones := w.dones.set i { d with pc := .read } }
        else none
    | .read =>
      match w.plugin.positionStore with
      | none => some { w with panicked := true }
      | some _ => some { w with dones := w.dones.set i { d with pc := .send w.position } }
    | .send v =>
      some { w with dones := w.dones.set i { d with pc := .close, delivered := d.delivered ++ [v] } }
    | .close =>
      if d.closed then some { w with panicked := true }
      else some { w with dones := w.dones.set i { d with pc := .exited, closed := true } }
    | .exited => none

/-- What the scheduler can pick next. -/
inductive Action where
  | task (i : Nat)
  | put (i : Nat) (p : MongoPosition)
  | callClose
  | close (i : Nat)
  | callDone
  | done (i : Nat)
deriving DecidableEq, Repr

/-- One scheduler step; `none` when the chosen step is blocked or does not exist.
A panic ends the process. -/
def step (w : World) (a : Action) : Option World :=
  if w.panicked then none
  else
    match a with
    | .task i => stepTask w i
    | .put i p => stepPut w i p
    | .callClose => some { w with closers := w.closers ++ [.enter] }
    | .close i => stepClose w i
    | .callDone => some (Done w)
    | .done i => stepDone w i

/-- Runs a schedule. -/
def exec (w : World) : List Action → Option World
  | [] => some w
  | a :: rest => (step w a).bind (fun w1 => exec w1 rest)

/-- A world in which nothing has been started: the plugin is the registered zero
value after `Configure` and `NewPositionStore` (which set `pipelineName`, `cfg`
and `positionStore` only), there is no goroutine and no caller. -/
def Pristine (w : World) : Prop :=
  w.plugin = { mongoInputPlugin.zero with
                pipelineName := w.plugin.pipelineName, cfg := w.plugin.cfg,
                positionStore := w.plugin.positionStore } ∧
  w.cancelled = [] ∧ w.goroutines = [] ∧ w.loopExited = [] ∧ w.closers = [] ∧
  w.dones = [] ∧ w.cancelCalls = 0 ∧ w.wgWaitCalls = 0 ∧ w.closedSessions = [] ∧
  w.panicked = false

instance (w : World) : Decidable (Pristine w) := by
  unfold Pristine; infer_instance

/-- Calls `n` more times `Close`, each call running to its return before the
next is made; `m` calls were made before. -/
def moreCalls : Nat → Nat → List Action
  | _, 0 => []
  | m, n + 1 => .callClose :: .close m :: moreCalls (m + 1) n

/-- The schedule of `k` calls of `Close` one after the other, the two goroutines
of `Start` finishing while the first call waits for them. -/
def closeSchedule : Nat → List Action
  | 0 => []
  | k + 1 =>
    [.callClose, .close 0, .close 0, .close 0, .task 0, .task 0, .task 1, .task 1,
     .close 0, .close 0, .close 0] ++ moreCalls 1 k

/-- A goroutine of `Start` with its function finished. -/
def Goroutine.finish : Goroutine → Goroutine
  | .runTailer t _ => .runTailer t .exited
  | .runChecker c _ => .runChecker c .exited

/-- The world with the record of who called `Close` left out. -/
def World.forgetClosers (w : World) : World := { w with closers := [] }

/-- A caller of `Close` that is inside the once-function. -/
def ClosePc.inside : ClosePc → Bool
  | .enter => false
  | .returned => false
  | _ => true

/-- The calls `Close` has made so far: `cancel` calls, `wg.Wait` calls, sessions
closed, contexts cancelled. -/
def Counters (w : World) (a b : Nat) (cs : List Session) (xs : List Context) : Prop :=
  w.cancelCalls = a ∧ w.wgWaitCalls = b ∧ w.closedSessions = cs ∧ w.cancelled = xs

/-- What has happened when the caller inside the once-function stands at `pc`. -/
def Progress (s : Session) (x : Context) (w : World) : ClosePc → Prop
  | .cancel => Counters w 0 0 [] []
  | .waitCall => Counters w 1 0 [] [x]
  | .waiting => Counters w 1 1 [] [x]
  | .closeSession => Counters w 1 1 [] [x] ∧ w.plugin.wg = 0
  | .leave => Counters w 1 1 [s] [x] ∧ w.plugin.wg = 0
  | _ => True

/-- What a `Done` call has done when its goroutine stands at `d.pc`. -/
def DoneOK (t : OplogTailer) (w : World) (d : DoneCall) : Prop :=
  match d.pc with
  | .wait => d.delivered = [] ∧ d.closed = false
  | .read => d.delivered = [] ∧ d.closed = false ∧ t ∈ w.loopExited
  | .send v => d.delivered = [] ∧ d.closed = false ∧ t ∈ w.loopExited ∧ v = w.position
  | .close => d.delivered = [w.position] ∧ d.closed = false ∧ t ∈ w.loopExited
  | .exited => d.delivered = [w.position] ∧ d.closed = true ∧ t ∈ w.loopExited

/-- What stays fixed after a successful `Start` with tailer `t`, checker `c`,
session `s` and context `x`: no panic, the plugin's handles, the two goroutines
and the wait-group counter that counts the unfinished ones. -/
structure InvBase (t : OplogTailer) (c : OplogChecker) (s : Session) (x : Context)
    (w : World) : Prop where
  notPanicked : w.panicked = false
  cancel : w.plugin.cancel = some ⟨x⟩
  session : w.plugin.mongoSession = some s
  tailer : w.plugin.oplogTailer = some t
  store : ∃ ps, w.plugin.positionStore = some ps
  tasks : ∃ p q, w.goroutines = [.runTailer t p, .runChecker c q] ∧
    w.plugin.wg = (if p = .exited then 0 else 1) + (if q = .exited then 0 else 1) ∧
    (t ∈ w.loopExited ↔ p ≠ .run)

/-- How the callers of `Close`, the `sync.Once` and the counters fit together. -/
structure InvClose (s : Session) (x : Context) (w : World) : Prop where
  returned : ∀ pc ∈ w.closers, pc = .returned → w.plugin.closeOnce = .done
  inside : w.closers.countP ClosePc.inside = if w.plugin.closeOnce = .running then 1 else 0
  progress : ∀ pc ∈ w.closers, pc.inside = true → Progress s x w pc
  fresh : w.plugin.closeOnce = .fresh → Counters w 0 0 [] []
  finished : w.plugin.closeOnce = .done → Counters w 1 1 [s] [x] ∧ w.plugin.wg = 0

/-- The invariant of the worlds reached from a plugin on which `Start` returned nil. -/
structure Inv (t : OplogTailer) (c : OplogChecker) (s : Session) (x : Context)
    (w : World) : Prop where
  base : InvBase t c s x w
  close : InvClose s x w
  dones : ∀ d ∈ w.dones, DoneOK t w d

/-! ## The worlds `Start` and `Close` leave -/

/-- The checker `Start` builds from `session`, `source` and the plugin's fields. -/
def startedChecker (w : World) (session : Session) (source : MongoConnConfig) : OplogChecker :=
  { session := session, sourceHost := source.Host,
    pipelineName := w.plugin.pipelineName, ctx := ⟨w.nextCtx⟩ }

/-- The tailer `Start` builds. -/
def startedTailer (w : World) (em : Emitter) (cfg : PluginConfig) (session : Session)
    (source : MongoConnConfig) (store : MongoPositionStore) : OplogTailer :=
  ⟨{ oplogChecker := startedChecker w session source, session := session,
     gtmConfig := cfg.GtmConfig, emitter := em, ctx := ⟨w.nextCtx⟩,
     sourceHost := source.Host, timestampStore := store,
     pipelineName := w.plugin.pipelineName }⟩

/-- The world a successful `Start` leaves. -/
def startedWorld (w : World) (em : Emitter) (cfg : PluginConfig) (session : Session)
    (source : MongoConnConfig) (store : MongoPositionStore) : World :=
  { w with
    plugin :=
      { w.plugin with
        emitter := some em, ctx := some ⟨w.nextCtx⟩, cancel := some ⟨⟨w.nextCtx⟩⟩,
        mongoSession := some session,
        oplogTailer := some (startedTailer w em cfg session source store),
        oplogChecker := some (startedChecker w session source),
        wg := w.plugin.wg + 1 + 1 },
    nextCtx := w.nextCtx + 1,
    goroutines := w.goroutines ++
      [Goroutine.runTailer (startedTailer w em cfg session source store) .run] ++
      [Goroutine.runChecker (startedChecker w session source) .run] }

/-- A sample decoder: the map is just the optional source host. -/
def sampleDecode : Option String → Except GoError PluginConfig :=
  fun host => .ok ⟨host.map MongoConnConfig.mk, none, none⟩

/-- The world after the once-function of `Close` has run on a started plugin and
`k` calls have returned. -/
def closedWorld (w : World) (em : Emitter) (cfg : PluginConfig) (session : Session)
    (source : MongoConnConfig) (store : MongoPositionStore) (k : Nat) : World :=
  { startedWorld w em cfg session source store with
    plugin := { (startedWorld w em cfg session source store).plugin with
                wg := 0, closeOnce := .done },
    cancelled := [⟨w.nextCtx⟩],
    goroutines := (startedWorld w em cfg session source store).goroutines.map Goroutine.finish,
    loopExited := [startedTailer w em cfg session source store],
    closers := List.replicate k .returned,
    cancelCalls := 1, wgWaitCalls := 1, closedSessions := [session] }

/-! ## A concrete plugin -/

/-- A configured plugin with a mongo position store, before `Start`. -/
def sampleWorld : World :=
  { plugin :=
      { mongoInputPlugin.zero with
        pipelineName := "pipe", cfg := some ⟨some ⟨"host"⟩, none, none⟩,
        positionStore := some (.mongo ⟨7⟩) },
    nextCtx := 0, cancelled := [], goroutines := [], loopExited := [], position := ⟨3⟩,
    closers := [], dones := [], cancelCalls := 0, wgWaitCalls := 0, closedSessions := [],
    panicked := false }

/-- A `CreateMongoSession` that succeeds. -/
def sampleConnect : Option MongoConnConfig → Except GoError Session := fun _ => .ok ⟨1⟩

/-- A `CreateMongoSession` that fails. -/
def sampleRefuse : Option MongoConnConfig → Except GoError Session :=
  fun _ => .error (.external 2)

/-- What `Start` makes of `sampleWorld` with `sampleConnect`. -/
def sampleStarted : World :=
  startedWorld sampleWorld ⟨5⟩ ⟨some ⟨"host"⟩, none, none⟩ ⟨1⟩ ⟨"host"⟩ ⟨7⟩

end mongooplog

namespace mysqlstream

/-! ## GTID sets -/

/-- Modelled from the spec: the type is the library's `gomysql.Interval`; §3 has a
GTID Set hold "disjoint closed intervals of transaction sequence numbers", here
`start..stop` with both ends included. -/
structure Interval where
  start : Nat
  stop : Nat
deriving DecidableEq, Repr

/-- Modelled from the spec: the type is the library's `gomysql.UUIDSet`; §3 gives
each source identity "an ordered set of disjoint closed intervals". -/
structure UUIDSet where
  SID : String
  Intervals : List Interval
deriving DecidableEq, Repr

/-- Modelled from the spec: the type is the library's `gomysql.MysqlGTIDSet`, a Go
map; §3 has a GTID Set be a "mapping from source-identity (server/replica UUID)"
to its intervals. The list holds the map's entries in the order an iteration
visits them. -/
structure MysqlGTIDSet where
  Sets : List UUIDSet
deriving DecidableEq, Repr

/-- The entry of identity `sid`, if the map has one. -/
def MysqlGTIDSet.get (s : MysqlGTIDSet) (sid : String) : Option (List Interval) :=
  (s.Sets.find? (fun e => e.SID = sid)).map UUIDSet.Intervals

/-- No identity has two entries (the list stands for a map). -/
def MysqlGTIDSet.NodupKeys (s : MysqlGTIDSet) : Prop := (s.Sets.map UUIDSet.SID).Nodup

instance (s : MysqlGTIDSet) : Decidable s.NodupKeys := by
  unfold MysqlGTIDSet.NodupKeys; infer_instance

/-- Interval `a` lies inside interval `b`. -/
def Interval.within (a b : Interval) : Prop := b.start ≤ a.start ∧ a.stop ≤ b.stop

/-- Modelled from the spec: the interval-set union of §3 ("merging
overlapping/adjacent intervals"), one interval into a sorted list of disjoint
intervals: an interval strictly before or after its neighbour is kept apart,
otherwise the two are merged and the merge goes on. -/
def addInterval (iv : Interval) : List Interval → List Interval
  | [] => [iv]
  | j :: rest =>
    if iv.stop + 1 < j.start then iv :: j :: rest
    else if j.stop + 1 < iv.start then j :: addInterval iv rest
    else addInterval ⟨min iv.start j.start, max iv.stop j.stop⟩ rest

/-- Modelled from the spec: "union of two GTID Sets is defined identity-wise as
interval-set union". -/
def unionIntervals (a b : List Interval) : List Interval :=
  b.foldl (fun acc iv => addInterval iv acc) a

/-- Modelled from the spec: steps 2 and 3 of the GTID Reconciler. "For every source
identity present in the live topology, compute fixed[identity] =
union(stored[identity] if present, live[identity])"; "Identities present in only
one of the two are carried through unchanged"; "Never remove an interval". -/
def reconcile (stored live : MysqlGTIDSet) : MysqlGTIDSet :=
  ⟨live.Sets.map (fun e =>
      match stored.get e.SID with
      | some s => ⟨e.SID, unionIntervals s e.Intervals⟩
      | none => e) ++
    stored.Sets.filter (fun e => (live.get e.SID).isNone)⟩

/-! ## The text form of a GTID set -/

/-- The decimal digit `d`. -/
def digitChar (d : Nat) : Char := Char.ofNat (48 + d)

/-- Decimal digits of `n`, most significant first, in front of `acc`. -/
def natTextAux : Nat → Nat → List Char → List Char
  | 0, _, acc => acc
  | fuel + 1, n, acc =>
    if n < 10 then digitChar n :: acc
    else natTextAux fuel (n / 10) (digitChar (n % 10) :: acc)

/-- Decimal text of `n`. -/
def natText (n : Nat) : List Char := natTextAux (n + 1) n []

/-- Text of an interval: `n` for a single transaction, `a-b` otherwise. -/
def Interval.text (iv : Interval) : List Char :=
  if iv.start = iv.stop then natText iv.start
  else natText iv.start ++ '-' :: natText iv.stop

/-- Joins pieces with a separator character. -/
def joinWith (sep : Char) : List (List Char) → List Char
  | [] => []
  | [x] => x
  | x :: y :: rest => x ++ sep :: joinWith sep (y :: rest)

/-- Text of one identity's set: `sid:a-b:c-d`. -/
def UUIDSet.text (e : UUIDSet) : List Char :=
  joinWith ':' (e.SID.data :: e.Intervals.map Interval.text)

/-- Modelled from the spec: "sort identities lexicographically before serializing". -/
def sortSets (sets : List UUIDSet) : List UUIDSet :=
  sets.insertionSort (fun a b => a.SID.data ≤ b.SID.data)

/-- Modelled from the spec: the "canonical, deterministically ordered text form
(identities sorted lexicographically)" of a GTID set: the identities' sets in
sorted order, separated by commas, as in the `masterGTID,slave1GTID` of the test. -/
def MysqlGTIDSet.String (s : MysqlGTIDSet) : String :=
  ⟨joinWith ',' ((sortSets s.Sets).map UUIDSet.text)⟩

/-- Splits at every separator character. -/
def splitOn (sep : Char) : List Char → List (List Char)
  | [] => [[]]
  | c :: cs =>
    if c = sep then [] :: splitOn sep cs
    else
      match splitOn sep cs with
      | [] => [[c]]
      | p :: ps => (c :: p) :: ps

/-- Value of a decimal digit. -/
def digitValue (c : Char) : Option Nat :=
  if 48 ≤ c.toNat ∧ c.toNat ≤ 57 then some (c.toNat - 48) else none

/-- Reads decimal digits after the value `acc`. -/
def parseNatAux : Nat → List Char → Option Nat
  | acc, [] => some acc
  | acc, c :: cs =>
    match digitValue c with
    | some d => parseNatAux (10 * acc + d) cs
    | none => none

/-- Reads a decimal number; the empty text is none. -/
def parseNat : List Char → Option Nat
  | [] => none
  | cs => parseNatAux 0 cs

/-- Reads `n` or `a-b` with `a ≤ b`. -/
def parseInterval (cs : List Char) : Option Interval :=
  match splitOn '-' cs with
  | [a] => (parseNat a).map (fun n => ⟨n, n⟩)
  | [a, b] =>
    match parseNat a, parseNat b with
    | some x, some y => if x ≤ y then some ⟨x, y⟩ else none
    | _, _ => none
  | _ => none

/-- Reads `sid:interval[:interval...]`; the intervals are put in normal form. -/
def ParseUUIDSet (cs : List Char) : Option UUIDSet :=
  match splitOn ':' cs with
  | sid :: first :: more =>
    ((first :: more).mapM parseInterval).map
      (fun ivs => ⟨⟨sid⟩, unionIntervals [] ivs⟩)
  | _ => none

/-- The call `s.AddSet(set)`: merges into the entry of the same identity, or adds one. -/
def MysqlGTIDSet.AddSet (s : MysqlGTIDSet) (set : UUIDSet) : MysqlGTIDSet :=
  if s.Sets.any (fun e => e.SID = set.SID) then
    ⟨s.Sets.map (fun e =>
      if e.SID = set.SID then ⟨e.SID, unionIntervals e.Intervals set.Intervals⟩ else e)⟩
  else ⟨s.Sets ++ [set]⟩

/-- The library call `gomysql.ParseMysqlGTIDSet` of `fakeDB.GetMasterStatus`, as
the reader of the text form above: the empty text is the empty set, otherwise the
comma-separated sets are read and added one by one. -/
def ParseMysqlGTIDSet (str : String) : Except GoError MysqlGTIDSet :=
  if str.data = [] then .ok ⟨[]⟩
  else
    match (splitOn ',' str.data).mapM ParseUUIDSet with
    | none => .error (.Errorf "invalid GTID set")
    | some sets => .ok (sets.foldl MysqlGTIDSet.AddSet ⟨[]⟩)

/-! ## `fixGTID` and the test's `fakeDB` -/

/-- The type `gomysql.Position`. -/
structure Position where
  Name : String
  Pos : Nat
deriving DecidableEq, Repr

/-- The type `utils.MySQLBinlogPosition`. -/
structure MySQLBinlogPosition where
  BinLogFileName : String
  BinLogFilePos : Nat
  BinlogGTID : String
deriving DecidableEq, Repr

/-- What `fixGTID` asks of its database argument: the two methods `fakeDB`
implements, each with its result. -/
structure MySQLStatusGetter where
  GetMasterStatus : Except GoError (Position × MysqlGTIDSet)
  GetServerUUID : Except GoError String

def master : String := "58ff439a-c2e2-11e6-bdc7-125c95d674c1"

def slave1 : String := "58ff439a-c2e2-11e6-bdc7-125c95d674c2"

def slave2 : String := "58ff439a-c2e2-11e6-bdc7-125c95d674c3"

def masterGTID : String := master ++ ":1-1000"

def slave1GTID : String := slave1 ++ ":1-4"

def slave2GTID : String := slave2 ++ ":1-45"

/-- The test's `fakeDB`. -/
def fakeDB : MySQLStatusGetter where
  GetMasterStatus :=
    match ParseMysqlGTIDSet (slave1GTID ++ "," ++ masterGTID ++ "," ++ slave2GTID) with
    | .error err => .error (.Trace err)
    | .ok gtidSet => .ok (⟨"test", 1⟩, gtidSet)
  GetServerUUID := .ok master

/-- Modelled from the spec: `fixGTID` is defined with the tailer, outside the test
file; §4.2 has it query the live target "for its own current identity and its
current master/replica GTID sets", fail when that query fails, fail on
"unparseable GTID text" (§7), and output the reconciled set in its canonical text
form. The file name and offset of the stored position are kept. -/
def fixGTID (db : MySQLStatusGetter) (binlogPosition : MySQLBinlogPosition) :
    Except GoError MySQLBinlogPosition :=
  match db.GetServerUUID with
  | .error err => .error (.Trace err)
  | .ok _ =>
    match db.GetMasterStatus with
    | .error err => .error (.Trace err)
    | .ok (_, live) =>
      match ParseMysqlGTIDSet binlogPosition.BinlogGTID with
      | .error err => .error (.Trace err)
      | .ok stored => .ok { binlogPosition with BinlogGTID := (reconcile stored live).String }

/-- The stored position of `TestFixGTID`. -/
def testPosition : MySQLBinlogPosition :=
  { BinLogFileName := "test", BinLogFilePos := 1, BinlogGTID := masterGTID ++ "," ++ slave1GTID }

/-- Intervals in normal form: every interval has `start ≤ stop`, and each one ends
more than one before the next starts (sorted, disjoint, not adjacent). -/
def Normal : List Interval → Prop
  | [] => True
  | [a] => a.start ≤ a.stop
  | a :: b :: rest => a.start ≤ a.stop ∧ a.stop + 1 < b.start ∧ Normal (b :: rest)

/-- Deciding the normal form, interval by interval. -/
def Normal.dec : (l : List Interval) → Decidable (Normal l)
  | [] => isTrue trivial
  | [a] => inferInstanceAs (Decidable (a.start ≤ a.stop))
  | a :: b :: rest =>
    have := Normal.dec (b :: rest)
    inferInstanceAs (Decidable (a.start ≤ a.stop ∧ a.stop + 1 < b.start ∧ Normal (b :: rest)))

instance : DecidablePred Normal := Normal.dec

/-- The first interval of the list, if any, starts at `m` or later. -/
def HeadFrom (m : Nat) : List Interval → Prop
  | [] => True
  | j :: _ => m ≤ j.start

/-! ## Well-formed GTID sets -/

/-- A decimal digit character. -/
def IsDigit (c : Char) : Prop := 48 ≤ c.toNat ∧ c.toNat ≤ 57

instance (c : Char) : Decidable (IsDigit c) := by
  unfold IsDigit; infer_instance

/-- An entry the text form can carry: its identity has no separator character, it
has at least one interval, and its intervals are in normal form. -/
def UUIDSet.WF (e : UUIDSet) : Prop :=
  ':' ∉ e.SID.data ∧ ',' ∉ e.SID.data ∧ e.Intervals ≠ [] ∧ Normal e.Intervals

instance (e : UUIDSet) : Decidable e.WF := by
  unfold UUIDSet.WF; infer_instance

/-- A GTID set as the data model has it: a map (no identity twice) of well-formed
entries. -/
def MysqlGTIDSet.WF (s : MysqlGTIDSet) : Prop := s.NodupKeys ∧ ∀ e ∈ s.Sets, e.WF

instance (s : MysqlGTIDSet) : Decidable s.WF := by
  unfold MysqlGTIDSet.WF; infer_instance

/-! ## The inputs of `TestFixGTID` -/

/-- The stored set of `TestFixGTID`: master, slave1. -/
def testStored : MysqlGTIDSet := ⟨[⟨master, [⟨1, 1000⟩]⟩, ⟨slave1, [⟨1, 4⟩]⟩]⟩

/-- The live set of `fakeDB`: slave1, master, slave2. -/
def testLive : MysqlGTIDSet :=
  ⟨[⟨slave1, [⟨1, 4⟩]⟩, ⟨master, [⟨1, 1000⟩]⟩, ⟨slave2, [⟨1, 45⟩]⟩]⟩

/-- The stored position with its identities the other way round. -/
def testPositionSwapped : MySQLBinlogPosition :=
  { BinLogFileName := "test", BinLogFilePos := 1, BinlogGTID := slave1GTID ++ "," ++ masterGTID }

/-- A database reporting the live set of `fakeDB` in another order. -/
def fakeDBReordered : MySQLStatusGetter where
  GetMasterStatus :=
    .ok (⟨"test", 1⟩,
      ⟨[⟨slave2, [⟨1, 45⟩]⟩, ⟨slave1, [⟨1, 4⟩]⟩, ⟨master, [⟨1, 1000⟩]⟩]⟩)
  GetServerUUID := .ok master

/-- A database whose master status cannot be read. -/
def failingDB : MySQLStatusGetter where
  GetMasterStatus := .error (.external 1)
  GetServerUUID := .ok master

/-- What the swapped stored text parses to: slave1, master. -/
def testStoredSwapped : MysqlGTIDSet := ⟨[⟨slave1, [⟨1, 4⟩]⟩, ⟨master, [⟨1, 1000⟩]⟩]⟩

/-- The live set of `fakeDBReordered`: slave2, slave1, master. -/
def testLiveReordered : MysqlGTIDSet :=
  ⟨[⟨slave2, [⟨1, 45⟩]⟩, ⟨slave1, [⟨1, 4⟩]⟩, ⟨master, [⟨1, 1000⟩]⟩]⟩

/-! ## The tailer's record loop and `TestMsgEmit` -/

/-- The type `core.MsgType`; the test names `core.MsgDML`. -/
inductive MsgType where
  | MsgDML
  | MsgDDL
  | MsgCtl
deriving DecidableEq, Repr

/-- The operation of a data change. -/
inductive Operation where
  | insert
  | update
  | delete
deriving DecidableEq, Repr

/-- The type `core.Msg`, with the fields the spec's Change Message names; `Type_` is
its field `Type`. -/
structure Msg where
  Type_ : MsgType
  Database : String
  Table : String
  Operation : Option Operation
  position : Nat
deriving DecidableEq, Repr

/-- The test's `fakeMsgSubmitter`. -/
structure fakeMsgSubmitter where
  msgs : List Msg
deriving DecidableEq, Repr

/-- The method `fakeMsgSubmitter.SubmitMsg`: keeps the message when it is a `core.MsgDML`,
and returns nil. -/
def fakeMsgSubmitter.SubmitMsg (submitter : fakeMsgSubmitter) (msg : Msg) :
    fakeMsgSubmitter × Option GoError :=
  if msg.Type_ = .MsgDML then ({ msgs := submitter.msgs ++ [msg] }, none)
  else (submitter, none)

/-- What a raw record of the source stream is. -/
inductive RecordKind where
  | dataChange (op : Operation)
  | schemaChange
  | deadSignal
  | empty
deriving DecidableEq, Repr

/-- A raw record of the source stream. -/
structure RawRecord where
  kind : RecordKind
  schema : String
  table : String
  position : Nat
deriving DecidableEq, Repr

/-- The Change Message built from an accepted record. -/
def RawRecord.toMsg (r : RawRecord) : Msg :=
  match r.kind with
  | .dataChange op =>
    { Type_ := .MsgDML, Database := r.schema, Table := r.table, Operation := some op,
      position := r.position }
  | .schemaChange =>
    { Type_ := .MsgDDL, Database := r.schema, Table := r.table, Operation := none,
      position := r.position }
  | _ =>
    { Type_ := .MsgCtl, Database := r.schema, Table := r.table, Operation := none,
      position := r.position }

/-- The tailer as the loop sees it: the submitter behind its emitter, the position
store, whether the completion notification (`binlogTailer.done`) has fired, and
the error it stopped with. -/
structure BinlogTailer (σ : Type) where
  submitter : σ
  position : Nat
  done : Bool
  err : Option GoError

/-- Modelled from the spec: `BinlogTailer` and `emitter.NewEmitter` are defined
outside the test file. This is the per-record processing of §4.5 over the records
still to come: the dead signal fires the completion notification and stops the reading; a
record the Origin Checker claims is discarded with the position advanced (§8); a
data change the Event Filter rejects is discarded; an empty record produces no
message; every other record becomes a Change Message handed to the emitter, which
(without filters, as in the test) passes it to its submitter in order; an error
stops the tailer, a success advances the position. -/
def BinlogTailer.run {σ : Type} (IsEventBelongsToMySelf : RawRecord → Bool)
    (binlogFilter : String → Bool) (SubmitMsg : σ → Msg → σ × Option GoError) :
    BinlogTailer σ → List RawRecord → BinlogTailer σ
  | t, [] => t
  | t, r :: rest =>
    match r.kind with
    | .deadSignal => { t with done := true }
    | .empty => BinlogTailer.run IsEventBelongsToMySelf binlogFilter SubmitMsg t rest
    | .schemaChange =>
      if IsEventBelongsToMySelf r then
        BinlogTailer.run IsEventBelongsToMySelf binlogFilter SubmitMsg
          { t with position := r.position } rest
      else
        match SubmitMsg t.submitter r.toMsg with
        | (sub, some err) => { t with submitter := sub, err := some err }
        | (sub, none) =>
          BinlogTailer.run IsEventBelongsToMySelf binlogFilter SubmitMsg
            { t with submitter := sub, position := r.position } rest
    | .dataChange _ =>
      if IsEventBelongsToMySelf r then
        BinlogTailer.run IsEventBelongsToMySelf binlogFilter SubmitMsg
          { t with position := r.position } rest
      else if binlogFilter r.schema = false then
        BinlogTailer.run IsEventBelongsToMySelf binlogFilter SubmitMsg t rest
      else
        match SubmitMsg t.submitter r.toMsg with
        | (sub, some err) => { t with submitter := sub, err := some err }
        | (sub, none) =>
          BinlogTailer.run IsEventBelongsToMySelf binlogFilter SubmitMsg
            { t with submitter := sub, position := r.position } rest

/-- A freshly started tailer over the submitter `sub`. -/
def BinlogTailer.start {σ : Type} (sub : σ) (position : Nat) : BinlogTailer σ :=
  { submitter := sub, position := position, done := false, err := none }

/-- A record is a data change that the checker does not claim and the filter accepts. -/
def Accepted (IsEventBelongsToMySelf : RawRecord → Bool) (binlogFilter : String → Bool)
    (r : RawRecord) : Prop :=
  (∃ op, r.kind = .dataChange op) ∧ IsEventBelongsToMySelf r = false ∧
    binlogFilter r.schema = true

/-- The schema `TestMsgEmit` watches. -/
def sourceDBName : String := "binlog_tailer_test"

/-- The test's `binlogFilter`. -/
def binlogFilter (schemaName : String) : Bool := schemaName = sourceDBName

/-- A data change on the test table. -/
def testRecord (op : Operation) (position : Nat) : RawRecord :=
  { kind := .dataChange op, schema := sourceDBName, table := "test_table",
    position := position }

/-- The stream of `TestMsgEmit`: three inserts, two updates. -/
def testStream : List RawRecord :=
  [testRecord .insert 1, testRecord .insert 2, testRecord .insert 3,
   testRecord .update 4, testRecord .update 5]

/-- The dead signal sent by `mysql_test.SendDeadSignal`. -/
def testDeadSignal : RawRecord :=
  { kind := .deadSignal, schema := "_gravity", table := "heartbeat", position := 6 }

end mysqlstream

/-! # Theorems -/

namespace mongooplog

/-! ## List facts used by the scheduler proofs -/

theorem countP_set_add {α : Type} (p : α → Bool) :
    ∀ (l : List α) (i : Nat) (a b : α), l[i]? = some a →
      List.countP p (l.set i b) + (if p a then 1 else 0) =
        List.countP p l + (if p b then 1 else 0)
  | [], i, a, b, h => by simp at h
  | y :: l, 0, a, b, h => by
    simp at h
    subst h
    simp [List.countP_cons]
    omega
  | y :: l, i + 1, a, b, h => by
    simp at h
    have ih := countP_set_add p l i a b h
    simp [List.countP_cons]
    omega

theorem mem_set_sole {α : Type} (p : α → Bool) :
    ∀ (l : List α) (i : Nat) (a b : α), l[i]? = some a → p a = true →
      List.countP p l = 1 → ∀ x ∈ l.set i b, x = b ∨ p x = false
  | [], i, a, b, h, _, _ => by simp at h
  | y :: l, 0, a, b, h, ha, hc => by
    simp at h
    subst h
    intro x hx
    simp [List.countP_cons, ha] at hc
    simp at hx
    rcases hx with hx | hx
    · exact Or.inl hx
    · right
      have := hc x hx
      simpa using this
  | y :: l, i + 1, a, b, h, ha, hc => by
    simp at h
    intro x hx
    simp at hx
    have hpos : 0 < List.countP p l :=
      List.countP_pos_iff.mpr ⟨a, List.getElem?_mem h, ha⟩
    rw [List.countP_cons] at hc
    rcases hx with hx | hx
    · right
      subst hx
      by_contra hpx
      simp at hpx
      rw [if_pos hpx] at hc
      omega
    · have hc2 : List.countP p l = 1 := by
        split at hc <;> omega
      exact mem_set_sole p l i a b h ha hc2 x hx

/-! ## `Start` on a pristine plugin -/

theorem start_ok {cms : Option MongoConnConfig → Except GoError Session} {w0 w1 : World}
    {em : Emitter} (hs : Start cms w0 em = .ret (w1, none)) :
    ∃ cfg session source store,
      w0.plugin.cfg = some cfg ∧ cms cfg.Source = .ok session ∧
      cfg.Source = some source ∧ w0.plugin.positionStore = some (.mongo store) ∧
      w1 = startedWorld w0 em cfg session source store := by
  unfold Start at hs
  simp only at hs
  split at hs
  · cases hs
  · rename_i cfg hcfg
    split at hs
    · simp at hs
    · rename_i session hsess
      split at hs
      · cases hs
      · rename_i source hsrc
        split at hs
        · rename_i store hstore
          simp only [Outcome.ret.injEq, Prod.mk.injEq, and_true] at hs
          exact ⟨cfg, session, source, store, hcfg, hsess, hsrc, hstore, hs.symm⟩
        · cases hs

theorem inv_started {w0 : World} (hp : Pristine w0) (em : Emitter) (cfg : PluginConfig)
    (session : Session) (source : MongoConnConfig) (store : MongoPositionStore)
    (hstore : w0.plugin.positionStore = some (.mongo store)) :
    Inv (startedTailer w0 em cfg session source store) (startedChecker w0 session source)
      session ⟨w0.nextCtx⟩ (startedWorld w0 em cfg session source store) := by
  obtain ⟨hpl, hc, hg, hl, hcl, hd, hcc, hwc, hcs, hpan⟩ := hp
  have hwg : w0.plugin.wg = 0 := by rw [hpl]; rfl
  have honce : w0.plugin.closeOnce = .fresh := by rw [hpl]; rfl
  refine ⟨⟨hpan, rfl, rfl, rfl, ⟨_, hstore⟩, ⟨.run, .run, ?_, ?_, ?_⟩⟩, ⟨?_, ?_, ?_, ?_, ?_⟩, ?_⟩
  · simp [startedWorld, hg]
  · simp [startedWorld, hwg]
  · simp [startedWorld, hl]
  · simp [startedWorld, hcl]
  · simp [startedWorld, hcl, honce]
  · simp [startedWorld, hcl]
  · intro _
    exact ⟨hcc, hwc, hcs, hc⟩
  · simp [startedWorld, honce]
  · simp [startedWorld, hd]

/-! ## The invariant is kept by every step -/

theorem progress_frame {s : Session} {x : Context} {w w1 : World} {pc : ClosePc}
    (h : Progress s x w pc) (h1 : w1.cancelCalls = w.cancelCalls)
    (h2 : w1.wgWaitCalls = w.wgWaitCalls) (h3 : w1.closedSessions = w.closedSessions)
    (h4 : w1.cancelled = w.cancelled) (h5 : w1.plugin.wg ≤ w.plugin.wg) :
    Progress s x w1 pc := by
  cases pc <;> simp only [Progress, Counters, h1, h2, h3, h4] at h ⊢ <;>
    first
      | exact h
      | exact ⟨h.1, by omega⟩

theorem invClose_frame {s : Session} {x : Context} {w w1 : World} (h : InvClose s x w)
    (h0 : w1.closers = w.closers) (ho : w1.plugin.closeOnce = w.plugin.closeOnce)
    (h1 : w1.cancelCalls = w.cancelCalls)
    (h2 : w1.wgWaitCalls = w.wgWaitCalls) (h3 : w1.closedSessions = w.closedSessions)
    (h4 : w1.cancelled = w.cancelled) (h5 : w1.plugin.wg ≤ w.plugin.wg) :
    InvClose s x w1 := by
  refine ⟨?_, ?_, ?_, ?_, ?_⟩
  · rw [h0, ho]; exact h.returned
  · rw [h0, ho]; exact h.inside
  · rw [h0]
    intro pc hpc hin
    exact progress_frame (h.progress pc hpc hin) h1 h2 h3 h4 h5
  · rw [ho]
    intro hf
    simpa only [Counters, h1, h2, h3, h4] using h.fresh hf
  · rw [ho]
    intro hf
    have := h.finished hf
    simp only [Counters, h1, h2, h3, h4] at this ⊢
    exact ⟨this.1, by omega⟩

theorem doneOK_frame {t : OplogTailer} {w w1 : World} {d : DoneCall} (h : DoneOK t w d)
    (hp : w1.position = w.position) (hl : t ∈ w.loopExited → t ∈ w1.loopExited) :
    DoneOK t w1 d := by
  unfold DoneOK at h ⊢
  split <;> simp_all

theorem inv_stepTask {t : OplogTailer} {c : OplogChecker} {s : Session} {x : Context}
    {w w1 : World} (h : Inv t c s x w) (i : Nat) (hs : stepTask w i = some w1) :
    Inv t c s x w1 := by
  obtain ⟨p, q, hg, hwg, hle⟩ := h.base.tasks
  unfold stepTask at hs
  rw [hg] at hs
  match i, hs with
  | 0, hs =>
    cases p
    · simp only [List.getElem?_cons_zero, Option.some.injEq] at hs
      subst hs
      refine ⟨⟨h.base.notPanicked, h.base.cancel, h.base.session, h.base.tailer, h.base.store,
        ⟨.deferred, q, by simp [hg], by simpa using hwg, by simp⟩⟩,
        invClose_frame h.close rfl rfl rfl rfl rfl rfl (le_refl _), ?_⟩
      intro d hd
      exact doneOK_frame (h.dones d hd) rfl (fun hm => List.mem_cons_of_mem _ hm)
    · simp only [List.getElem?_cons_zero, Option.some.injEq] at hs
      subst hs
      have hpos : w.plugin.wg ≠ 0 := by simp [hwg]
      have hle2 : t ∈ w.loopExited := by simpa using hle
      refine ⟨⟨by simp [wgDone, hpos, h.base.notPanicked],
        by simp [wgDone, hpos, h.base.cancel], by simp [wgDone, hpos, h.base.session],
        by simp [wgDone, hpos, h.base.tailer], by simpa [wgDone, hpos] using h.base.store,
        ⟨.exited, q, by simp [wgDone, hpos, hg], by simp [wgDone, hpos, hwg],
          by simp [wgDone, hpos, hle2]⟩⟩,
        invClose_frame h.close (by simp [wgDone, hpos]) (by simp [wgDone, hpos])
          (by simp [wgDone, hpos]) (by simp [wgDone, hpos]) (by simp [wgDone, hpos])
          (by simp [wgDone, hpos]) (by simp [wgDone, hpos]), ?_⟩
      intro d hd
      have hd2 : d ∈ w.dones := by simpa [wgDone, hpos] using hd
      exact doneOK_frame (h.dones d hd2) (by simp [wgDone, hpos]) (by simp [wgDone, hpos])
    · simp at hs
  | 1, hs =>
    cases q
    · simp only [List.getElem?_cons_succ, List.getElem?_cons_zero, Option.some.injEq] at hs
      subst hs
      refine ⟨⟨h.base.notPanicked, h.base.cancel, h.base.session, h.base.tailer, h.base.store,
        ⟨p, .deferred, by simp [hg], by simpa using hwg, hle⟩⟩,
        invClose_frame h.close rfl rfl rfl rfl rfl rfl (le_refl _), ?_⟩
      intro d hd
      exact doneOK_frame (h.dones d hd) rfl (fun hm => hm)
    · simp only [List.getElem?_cons_succ, List.getElem?_cons_zero, Option.some.injEq] at hs
      subst hs
      have hpos : w.plugin.wg ≠ 0 := by simp [hwg]
      refine ⟨⟨by simp [wgDone, hpos, h.base.notPanicked],
        by simp [wgDone, hpos, h.base.cancel], by simp [wgDone, hpos, h.base.session],
        by simp [wgDone, hpos, h.base.tailer], by simpa [wgDone, hpos] using h.base.store,
        ⟨p, .exited, by simp [wgDone, hpos, hg], by simp [wgDone, hpos, hwg],
          by simpa [wgDone, hpos] using hle⟩⟩,
        invClose_frame h.close (by simp [wgDone, hpos]) (by simp [wgDone, hpos])
          (by simp [wgDone, hpos]) (by simp [wgDone, hpos]) (by simp [wgDone, hpos])
          (by simp [wgDone, hpos]) (by simp [wgDone, hpos]), ?_⟩
      intro d hd
      have hd2 : d ∈ w.dones := by simpa [wgDone, hpos] using hd
      exact doneOK_frame (h.dones d hd2) (by simp [wgDone, hpos]) (by simp [wgDone, hpos])
    · simp at hs
  | n + 2, hs => simp at hs

theorem inv_stepPut {t : OplogTailer} {c : OplogChecker} {s : Session} {x : Context}
    {w w1 : World} (h : Inv t c s x w) (i : Nat) (v : MongoPosition)
    (hs : stepPut w i v = some w1) : Inv t c s x w1 := by
  obtain ⟨p, q, hg, hwg, hle⟩ := h.base.tasks
  unfold stepPut at hs
  have hrun : p = .run ∧ w1 = { w with position := v } := by
    split at hs
    · rename_i t1 hi
      rw [hg] at hi
      refine ⟨?_, (Option.some.inj hs).symm⟩
      match i, hi with
      | 0, hi =>
        simp only [List.getElem?_cons_zero, Option.some.injEq, Goroutine.runTailer.injEq] at hi
        exact hi.2
      | 1, hi => simp at hi
      | n + 2, hi => simp at hi
    · cases hs
  obtain ⟨hp, rfl⟩ := hrun
  have hnot : t ∉ w.loopExited := by simp [hle, hp]
  refine ⟨⟨h.base.notPanicked, h.base.cancel, h.base.session, h.base.tailer, h.base.store,
    ⟨p, q, hg, hwg, hle⟩⟩, invClose_frame h.close rfl rfl rfl rfl rfl rfl (le_refl _), ?_⟩
  intro d hd
  have hold := h.dones d hd
  unfold DoneOK at hold ⊢
  split <;> simp_all

theorem inv_callClose {t : OplogTailer} {c : OplogChecker} {s : Session} {x : Context}
    {w : World} (h : Inv t c s x w) :
    Inv t c s x { w with closers := w.closers ++ [.enter] } := by
  refine ⟨⟨h.base.notPanicked, h.base.cancel, h.base.session, h.base.tailer, h.base.store,
    h.base.tasks⟩, ⟨?_, ?_, ?_, h.close.fresh, h.close.finished⟩, h.dones⟩
  · intro pc hpc hr
    simp only [List.mem_append, List.mem_singleton] at hpc
    rcases hpc with hpc | hpc
    · exact h.close.returned pc hpc hr
    · rw [hpc] at hr; cases hr
  · simp only [List.countP_append, List.countP_cons, List.countP_nil, ClosePc.inside]
    simpa using h.close.inside
  · intro pc hpc hin
    simp only [List.mem_append, List.mem_singleton] at hpc
    rcases hpc with hpc | hpc
    · exact progress_frame (h.close.progress pc hpc hin) rfl rfl rfl rfl (le_refl _)
    · rw [hpc] at hin; cases hin

theorem inv_Done {t : OplogTailer} {c : OplogChecker} {s : Session} {x : Context}
    {w : World} (h : Inv t c s x w) : Inv t c s x (Done w) := by
  refine ⟨⟨h.base.notPanicked, h.base.cancel, h.base.session, h.base.tailer, h.base.store,
    h.base.tasks⟩, invClose_frame h.close rfl rfl rfl rfl rfl rfl (le_refl _), ?_⟩
  intro d hd
  simp only [Done, List.mem_append, List.mem_singleton] at hd
  rcases hd with hd | hd
  · exact doneOK_frame (h.dones d hd) rfl (fun hm => hm)
  · subst hd
    simp [DoneOK]

theorem inv_stepDone {t : OplogTailer} {c : OplogChecker} {s : Session} {x : Context}
    {w w1 : World} (h : Inv t c s x w) (i : Nat) (hs : stepDone w i = some w1) :
    Inv t c s x w1 := by
  unfold stepDone at hs
  split at hs
  · cases hs
  · rename_i d hi
    have hdm : d ∈ w.dones := List.getElem?_mem hi
    have hd := h.dones d hdm
    obtain ⟨ps, hps⟩ := h.base.store
    have key : ∀ d1 : DoneCall, DoneOK t w d1 →
        Inv t c s x { w with dones := w.dones.set i d1 } := by
      intro d1 hd1
      refine ⟨⟨h.base.notPanicked, h.base.cancel, h.base.session, h.base.tailer, h.base.store,
        h.base.tasks⟩, invClose_frame h.close rfl rfl rfl rfl rfl rfl (le_refl _), ?_⟩
      intro e he
      rcases List.mem_or_eq_of_mem_set he with he | he
      · exact doneOK_frame (h.dones e he) rfl (fun hm => hm)
      · subst he
        exact doneOK_frame hd1 rfl (fun hm => hm)
    unfold DoneOK at hd
    split at hs
    · rename_i hpc
      rw [h.base.tailer] at hs
      simp only at hs
      split at hs
      · rename_i hex
        have hex2 : t ∈ w.loopExited := by simpa [OplogTailer.waitReturns] using hex
        cases hs
        apply key
        simp only [hpc] at hd
        simp [DoneOK, hd, hex2]
      · cases hs
    · rename_i hpc
      rw [hps] at hs
      simp only [Option.some.injEq] at hs
      subst hs
      apply key
      simp only [hpc] at hd
      simp [DoneOK, hd]
    · rename_i v hpc
      simp only [Option.some.injEq] at hs
      subst hs
      apply key
      simp only [hpc] at hd
      simp [DoneOK, hd]
    · rename_i hpc
      simp only [hpc] at hd
      simp only [hd.2.1] at hs
      simp only [Bool.false_eq_true, if_false, Option.some.injEq] at hs
      subst hs
      apply key
      simp [DoneOK, hd]
    · cases hs

theorem once_running_of_inside {s : Session} {x : Context} {w : World} (h : InvClose s x w)
    {i : Nat} {pc : ClosePc} (hi : w.closers[i]? = some pc) (hin : pc.inside = true) :
    w.plugin.closeOnce = .running ∧ w.closers.countP ClosePc.inside = 1 := by
  have hpos : 0 < w.closers.countP ClosePc.inside :=
    List.countP_pos_iff.mpr ⟨pc, List.getElem?_mem hi, hin⟩
  have hc := h.inside
  by_cases hr : w.plugin.closeOnce = .running
  · rw [if_pos hr] at hc
    exact ⟨hr, hc⟩
  · rw [if_neg hr] at hc
    omega

theorem invClose_advance {s : Session} {x : Context} {w w1 : World} (h : InvClose s x w)
    {i : Nat} {pc : ClosePc} (pc1 : ClosePc) (hi : w.closers[i]? = some pc)
    (hin : pc.inside = true) (hin1 : pc1.inside = true) (hcl : w1.closers = w.closers.set i pc1)
    (ho : w1.plugin.closeOnce = w.plugin.closeOnce) (hp : Progress s x w1 pc1) :
    InvClose s x w1 := by
  obtain ⟨hrun, hcount⟩ := once_running_of_inside h hi hin
  refine ⟨?_, ?_, ?_, ?_, ?_⟩
  · intro e he hr
    rw [hcl] at he
    rcases List.mem_or_eq_of_mem_set he with he | he
    · have := h.returned e he hr
      rw [hrun] at this
      cases this
    · subst he
      subst hr
      cases hin1
  · have := countP_set_add ClosePc.inside w.closers i pc pc1 hi
    rw [hcl, ho, hrun, if_pos rfl]
    rw [hin, hin1, hcount] at this
    simpa using this
  · intro e he hine
    rw [hcl] at he
    rcases mem_set_sole ClosePc.inside w.closers i pc pc1 hi hin hcount e he with he | he
    · subst he
      exact hp
    · rw [he] at hine
      cases hine
  · rw [ho, hrun]
    intro hf
    cases hf
  · rw [ho, hrun]
    intro hf
    cases hf

theorem invBase_frame {t : OplogTailer} {c : OplogChecker} {s : Session} {x : Context}
    {w w1 : World} (h : InvBase t c s x w) (h0 : w1.panicked = w.panicked)
    (h1 : w1.plugin.cancel = w.plugin.cancel)
    (h2 : w1.plugin.mongoSession = w.plugin.mongoSession)
    (h3 : w1.plugin.oplogTailer = w.plugin.oplogTailer)
    (h4 : w1.plugin.positionStore = w.plugin.positionStore)
    (h5 : w1.goroutines = w.goroutines) (h6 : w1.plugin.wg = w.plugin.wg)
    (h7 : w1.loopExited = w.loopExited) : InvBase t c s x w1 := by
  refine ⟨?_, ?_, ?_, ?_, ?_, ?_⟩
  · rw [h0]; exact h.notPanicked
  · rw [h1]; exact h.cancel
  · rw [h2]; exact h.session
  · rw [h3]; exact h.tailer
  · rw [h4]; exact h.store
  · rw [h5, h6, h7]; exact h.tasks

theorem inv_stepClose {t : OplogTailer} {c : OplogChecker} {s : Session} {x : Context}
    {w w1 : World} (h : Inv t c s x w) (i : Nat) (hs : stepClose w i = some w1) :
    Inv t c s x w1 := by
  have hdone : ∀ w2 : World, w2.dones = w.dones → w2.position = w.position →
      w2.loopExited = w.loopExited → ∀ d ∈ w2.dones, DoneOK t w2 d := by
    intro w2 e1 e2 e3 d hd
    rw [e1] at hd
    exact doneOK_frame (h.dones d hd) e2 (by rw [e3]; exact fun hm => hm)
  unfold stepClose at hs
  split at hs
  · -- at `closeOnce.Do`
    rename_i hi
    split at hs
    · rename_i hfresh
      simp only [Option.some.injEq] at hs
      subst hs
      have hz : w.closers.countP ClosePc.inside = 0 := by
        have := h.close.inside
        rw [hfresh] at this
        simpa using this
      have hnone : ∀ e ∈ w.closers, e.inside = false := by
        intro e he
        have := (List.countP_eq_zero.mp hz) e he
        simpa using this
      refine ⟨invBase_frame h.base rfl rfl rfl rfl rfl rfl rfl rfl, ⟨?_, ?_, ?_, ?_, ?_⟩,
        hdone _ rfl rfl rfl⟩
      · intro e he hr
        rcases List.mem_or_eq_of_mem_set he with he | he
        · have := h.close.returned e he hr
          rw [hfresh] at this
          cases this
        · subst he
          cases hr
      · have := countP_set_add ClosePc.inside w.closers i .enter .cancel hi
        simp only [ClosePc.inside, hz] at this
        simpa using this
      · intro e he hine
        rcases List.mem_or_eq_of_mem_set he with he | he
        · rw [hnone e he] at hine
          cases hine
        · subst he
          exact h.close.fresh hfresh
      · intro hf
        cases hf
      · intro hf
        cases hf
    · cases hs
    · rename_i hfin
      simp only [Option.some.injEq] at hs
      subst hs
      have hz : w.closers.countP ClosePc.inside = 0 := by
        have := h.close.inside
        rw [hfin] at this
        simpa using this
      have hnone : ∀ e ∈ w.closers, e.inside = false := by
        intro e he
        have := (List.countP_eq_zero.mp hz) e he
        simpa using this
      refine ⟨invBase_frame h.base rfl rfl rfl rfl rfl rfl rfl rfl, ⟨?_, ?_, ?_, ?_, ?_⟩,
        hdone _ rfl rfl rfl⟩
      · intro _ _ _
        exact hfin
      · have := countP_set_add ClosePc.inside w.closers i .enter .returned hi
        simp only [ClosePc.inside, hz] at this
        show List.countP ClosePc.inside (w.closers.set i .returned) =
          if w.plugin.closeOnce = .running then 1 else 0
        rw [hfin]
        simpa using this
      · intro e he hine
        rcases List.mem_or_eq_of_mem_set he with he | he
        · rw [hnone e he] at hine
          cases hine
        · subst he
          cases hine
      · exact h.close.fresh
      · exact h.close.finished
  · -- before `plugin.cancel()`
    rename_i hi
    rw [h.base.cancel] at hs
    simp only [Option.some.injEq] at hs
    subst hs
    have hp := h.close.progress _ (List.getElem?_mem hi) rfl
    refine ⟨invBase_frame h.base rfl rfl rfl rfl rfl rfl rfl rfl,
      invClose_advance h.close .waitCall hi rfl rfl rfl rfl ?_, hdone _ rfl rfl rfl⟩
    simp only [Progress, Counters] at hp ⊢
    simp [hp]
  · -- before `plugin.wg.Wait()`
    rename_i hi
    simp only [Option.some.injEq] at hs
    subst hs
    have hp := h.close.progress _ (List.getElem?_mem hi) rfl
    refine ⟨invBase_frame h.base rfl rfl rfl rfl rfl rfl rfl rfl,
      invClose_advance h.close .waiting hi rfl rfl rfl rfl ?_, hdone _ rfl rfl rfl⟩
    simp only [Progress, Counters] at hp ⊢
    simp [hp]
  · -- inside `plugin.wg.Wait()`
    rename_i hi
    split at hs
    · rename_i hwg
      simp only [Option.some.injEq] at hs
      subst hs
      have hp := h.close.progress _ (List.getElem?_mem hi) rfl
      refine ⟨invBase_frame h.base rfl rfl rfl rfl rfl rfl rfl rfl,
        invClose_advance h.close .closeSession hi rfl rfl rfl rfl ?_,
        hdone _ rfl rfl rfl⟩
      simp only [Progress, Counters] at hp ⊢
      simp [hp, hwg]
    · cases hs
  · -- before `plugin.mongoSession.Close()`
    rename_i hi
    rw [h.base.session] at hs
    simp only [Option.some.injEq] at hs
    subst hs
    have hp := h.close.progress _ (List.getElem?_mem hi) rfl
    refine ⟨invBase_frame h.base rfl rfl rfl rfl rfl rfl rfl rfl,
      invClose_advance h.close .leave hi rfl rfl rfl rfl ?_, hdone _ rfl rfl rfl⟩
    simp only [Progress, Counters] at hp ⊢
    simp [hp]
  · -- the once-function returns
    rename_i hi
    simp only [Option.some.injEq] at hs
    subst hs
    have hp := h.close.progress _ (List.getElem?_mem hi) rfl
    obtain ⟨hrun, hcount⟩ := once_running_of_inside h.close hi rfl
    refine ⟨invBase_frame h.base rfl rfl rfl rfl rfl rfl rfl rfl, ⟨?_, ?_, ?_, ?_, ?_⟩,
      hdone _ rfl rfl rfl⟩
    · intro _ _ _
      rfl
    · have := countP_set_add ClosePc.inside w.closers i .leave .returned hi
      simp only [ClosePc.inside, hcount] at this
      show List.countP ClosePc.inside (w.closers.set i .returned) = _
      simp at this ⊢
      exact this
    · intro e he hine
      rcases mem_set_sole ClosePc.inside w.closers i .leave .returned hi rfl hcount e he
        with he | he
      · subst he
        cases hine
      · rw [he] at hine
        cases hine
    · intro hf
      cases hf
    · intro _
      exact hp
  · cases hs

theorem inv_step {t : OplogTailer} {c : OplogChecker} {s : Session} {x : Context}
    {w w1 : World} (h : Inv t c s x w) (a : Action) (hs : step w a = some w1) :
    Inv t c s x w1 := by
  unfold step at hs
  split at hs
  · rename_i hpan
    rw [h.base.notPanicked] at hpan
    cases hpan
  cases a with
  | task i => exact inv_stepTask h i hs
  | put i v => exact inv_stepPut h i v hs
  | callClose =>
    cases hs
    exact inv_callClose h
  | close i => exact inv_stepClose h i hs
  | callDone =>
    cases hs
    exact inv_Done h
  | done i => exact inv_stepDone h i hs

theorem inv_exec {t : OplogTailer} {c : OplogChecker} {s : Session} {x : Context} :
    ∀ (sched : List Action) (w w1 : World), Inv t c s x w → exec w sched = some w1 →
      Inv t c s x w1
  | [], w, w1, h, hs => by
    simp only [exec, Option.some.injEq] at hs
    subst hs
    exact h
  | a :: rest, w, w1, h, hs => by
    simp only [exec] at hs
    cases hst : step w a with
    | none => rw [hst] at hs; cases hs
    | some w2 =>
      rw [hst] at hs
      exact inv_exec rest w2 w1 (inv_step h a hst) hs

/-! ## `Configure` -/

/-- C5. When the map decodes, `Configure` returns an error exactly when the decoded
`Source` is nil; on an error `cfg` is left as it was, and on nil `cfg` holds the
decoded configuration and `pipelineName` the given name. -/
theorem Configure_error_iff_source_nil {Data : Type}
    (Decode : Data → Except GoError PluginConfig) (plugin : mongoInputPlugin)
    (pipelineName : String) (data : Data) (cfg : PluginConfig)
    (hdec : Decode data = .ok cfg) :
    ((Configure Decode plugin pipelineName data).2 ≠ none ↔ cfg.Source = none) ∧
    ((Configure Decode plugin pipelineName data).2 ≠ none →
      (Configure Decode plugin pipelineName data).1.cfg = plugin.cfg) ∧
    ((Configure Decode plugin pipelineName data).2 = none →
      (Configure Decode plugin pipelineName data).1.cfg = some cfg ∧
      (Configure Decode plugin pipelineName data).1.pipelineName = pipelineName) := by
  unfold Configure
  simp only [hdec]
  cases hsrc : cfg.Source <;> simp

theorem Configure_error_iff_source_nil_witness :
    sampleDecode none = .ok ⟨none, none, none⟩ ∧
    (((Configure sampleDecode mongoInputPlugin.zero "pipe" none).2 ≠ none ↔
        (⟨none, none, none⟩ : PluginConfig).Source = none) ∧
      ((Configure sampleDecode mongoInputPlugin.zero "pipe" none).2 ≠ none →
        (Configure sampleDecode mongoInputPlugin.zero "pipe" none).1.cfg =
          mongoInputPlugin.zero.cfg) ∧
      ((Configure sampleDecode mongoInputPlugin.zero "pipe" none).2 = none →
        (Configure sampleDecode mongoInputPlugin.zero "pipe" none).1.cfg =
          some ⟨none, none, none⟩ ∧
        (Configure sampleDecode mongoInputPlugin.zero "pipe" none).1.pipelineName = "pipe")) :=
  ⟨rfl, Configure_error_iff_source_nil sampleDecode mongoInputPlugin.zero "pipe" none
    ⟨none, none, none⟩ rfl⟩

/-! ## `Start`: what it builds, and what it leaves alone on a failed session -/

/-- C9. When `Start` returns nil, the tailer and the checker carry one and the same
context, the plugin's `cancel` is that context's cancel function, the wait group
has grown by exactly two and exactly the two goroutines (tailer, checker) were
spawned; the `plugin.cancel()` step of `Close` then cancels the context of both. -/
theorem Start_shares_context (cms : Option MongoConnConfig → Except GoError Session)
    (w0 w1 : World) (em : Emitter) (hs : Start cms w0 em = .ret (w1, none)) :
    ∃ t c x,
      w1.plugin.oplogTailer = some t ∧ w1.plugin.oplogChecker = some c ∧
      t.opts.ctx = x ∧ c.ctx = x ∧ t.opts.oplogChecker = c ∧
      w1.plugin.ctx = some x ∧ w1.plugin.cancel = some ⟨x⟩ ∧
      w1.plugin.wg = w0.plugin.wg + 2 ∧
      w1.goroutines = w0.goroutines ++ [.runTailer t .run, .runChecker c .run] ∧
      ∀ (w : World) (i : Nat), w.plugin.cancel = w1.plugin.cancel →
        w.closers[i]? = some .cancel →
        ∃ w2, stepClose w i = some w2 ∧ w2.cancelCalls = w.cancelCalls + 1 ∧
          t.opts.ctx ∈ w2.cancelled ∧ c.ctx ∈ w2.cancelled := by
  obtain ⟨cfg, session, source, store, -, -, -, -, rfl⟩ := start_ok hs
  refine ⟨startedTailer w0 em cfg session source store, startedChecker w0 session source,
    ⟨w0.nextCtx⟩, rfl, rfl, rfl, rfl, rfl, rfl, rfl, rfl, ?_, ?_⟩
  · simp [startedWorld]
  · intro w i hc hi
    have hc2 : w.plugin.cancel = some ⟨⟨w0.nextCtx⟩⟩ := hc
    have hstep : stepClose w i =
        some { w with cancelled := ⟨w0.nextCtx⟩ :: w.cancelled,
                      cancelCalls := w.cancelCalls + 1,
                      closers := w.closers.set i .waitCall } := by
      simp only [stepClose, hi, hc2]
    exact ⟨_, hstep, rfl, by simp [startedTailer], by simp [startedChecker]⟩

/-- C10. When creating the mongo session fails with `err`, `Start` returns
`errors.Trace(err)`, spawns no goroutine, leaves the wait group, `mongoSession`,
`oplogTailer` and `oplogChecker` as they were, and has set only `emitter`, `ctx`
and `cancel`. -/
theorem Start_session_error (cms : Option MongoConnConfig → Except GoError Session)
    (w0 : World) (em : Emitter) (cfg : PluginConfig) (err : GoError)
    (hcfg : w0.plugin.cfg = some cfg) (herr : cms cfg.Source = .error err) :
    ∃ w1, Start cms w0 em = .ret (w1, some (.Trace err)) ∧
      w1.goroutines = w0.goroutines ∧ w1.plugin.wg = w0.plugin.wg ∧
      w1.plugin.mongoSession = w0.plugin.mongoSession ∧
      w1.plugin.oplogTailer = w0.plugin.oplogTailer ∧
      w1.plugin.oplogChecker = w0.plugin.oplogChecker ∧
      w1.plugin = { w0.plugin with emitter := some em, ctx := w1.plugin.ctx,
                                   cancel := w1.plugin.cancel } := by
  unfold Start
  simp only [hcfg, herr]
  exact ⟨_, rfl, rfl, rfl, rfl, rfl, rfl, rfl⟩

/-! ## `Close` -/

theorem set_concat_length {α : Type} (l : List α) (a b : α) :
    (l ++ [a]).set l.length b = l ++ [b] := by
  simp

theorem exec_append (w : World) (as bs : List Action) :
    exec w (as ++ bs) = (exec w as).bind (fun w1 => exec w1 bs) := by
  induction as generalizing w with
  | nil => simp [exec]
  | cons a rest ih =>
    simp only [List.cons_append, exec]
    cases step w a with
    | none => simp
    | some w1 => simp [ih]

theorem exec_cons_of_step {w w1 : World} {a : Action} (h : step w a = some w1)
    (rest : List Action) : exec w (a :: rest) = exec w1 rest := by
  rw [exec, h, Option.some_bind]

theorem pristine_eq {w : World} (hp : Pristine w) :
    w = { plugin := { mongoInputPlugin.zero with
                      pipelineName := w.plugin.pipelineName, cfg := w.plugin.cfg,
                      positionStore := w.plugin.positionStore },
          nextCtx := w.nextCtx, cancelled := [], goroutines := [], loopExited := [],
          position := w.position, closers := [], dones := [], cancelCalls := 0,
          wgWaitCalls := 0, closedSessions := [], panicked := false } := by
  obtain ⟨h1, h2, h3, h4, h5, h6, h7, h8, h9, h10⟩ := hp
  cases w
  simp only at h1 h2 h3 h4 h5 h6 h7 h8 h9 h10
  subst h2 h3 h4 h5 h6 h7 h8 h9 h10
  simp only [World.mk.injEq, and_true, true_and]
  exact h1

theorem exec_first_close {w0 : World} (hp : Pristine w0) (em : Emitter) (cfg : PluginConfig)
    (session : Session) (source : MongoConnConfig) (store : MongoPositionStore) :
    exec (startedWorld w0 em cfg session source store)
      [.callClose, .close 0, .close 0, .close 0, .task 0, .task 0, .task 1, .task 1,
       .close 0, .close 0, .close 0] =
    some (closedWorld w0 em cfg session source store 1) := by
  rw [pristine_eq hp]
  rfl

theorem exec_moreCalls : ∀ (n m : Nat) (w : World), w.panicked = false →
    w.plugin.closeOnce = .done → w.closers = List.replicate m .returned →
    exec w (moreCalls m n) = some { w with closers := List.replicate (m + n) .returned }
  | 0, m, w, _, _, hc => by
    simp only [moreCalls, exec, Nat.add_zero, ← hc]
  | n + 1, m, w, hp, ho, hc => by
    have hlen : m = w.closers.length := by simp [hc]
    have h1 : step w .callClose = some { w with closers := w.closers ++ [.enter] } := by
      simp [step, hp]
    have h2 : step { w with closers := w.closers ++ [.enter] } (.close m) =
        some { w with closers := List.replicate (m + 1) .returned } := by
      simp only [step, hp, Bool.false_eq_true, if_false, stepClose]
      rw [hlen, List.getElem?_concat_length]
      simp only [ho, set_concat_length]
      rw [hc, List.length_replicate, List.replicate_succ']
    simp only [moreCalls, exec, h1, Option.some_bind, h2]
    rw [exec_moreCalls n (m + 1) { w with closers := List.replicate (m + 1) .returned } hp ho rfl]
    simp [Nat.add_assoc, Nat.add_comm 1 n]

theorem invClose_counts {s : Session} {x : Context} {w : World} (h : InvClose s x w) :
    (w.closedSessions = [] ∨ (w.closedSessions = [s] ∧ w.plugin.wg = 0)) ∧
    w.closedSessions.length ≤ w.wgWaitCalls ∧ w.wgWaitCalls ≤ w.cancelCalls ∧
    w.cancelCalls ≤ 1 ∧ (w.cancelCalls = 1 → w.cancelled = [x]) := by
  cases ho : w.plugin.closeOnce with
  | fresh =>
    obtain ⟨h1, h2, h3, h4⟩ := h.fresh ho
    simp [h1, h2, h3]
  | done =>
    obtain ⟨⟨h1, h2, h3, h4⟩, h5⟩ := h.finished ho
    simp [h1, h2, h3, h4, h5]
  | running =>
    have hc := h.inside
    rw [ho, if_pos rfl] at hc
    have hpos : 0 < w.closers.countP ClosePc.inside := by omega
    obtain ⟨pc, hmem, hin⟩ := List.countP_pos_iff.mp hpos
    have hp := h.progress pc hmem hin
    clear hc hpos hmem
    cases pc <;> simp_all [Progress, Counters, ClosePc.inside]

theorem invClose_at_closeSession {s : Session} {x : Context} {w : World}
    (h : InvClose s x w) (hm : ClosePc.closeSession ∈ w.closers) :
    w.plugin.wg = 0 ∧ w.cancelCalls = 1 ∧ w.wgWaitCalls = 1 ∧ w.cancelled = [x] := by
  obtain ⟨⟨h1, h2, _, h4⟩, h5⟩ := h.progress _ hm rfl
  exact ⟨h5, h1, h2, h4⟩

theorem invBase_all_exited {t : OplogTailer} {c : OplogChecker} {s : Session} {x : Context}
    {w : World} (h : InvBase t c s x w) (hwg : w.plugin.wg = 0) :
    w.goroutines = [.runTailer t .exited, .runChecker c .exited] := by
  obtain ⟨p, q, hg, hw, -⟩ := h.tasks
  rw [hwg] at hw
  cases p <;> cases q <;> simp at hw
  exact hg

/-- C3. On a plugin on which `Start` returned nil, however the calls of `Close`
and the goroutines interleave, there is no panic and `cancel`, `wg.Wait` and the
session's `Close` are each called at most once, and exactly once as soon as some
call of `Close` has returned; and `k ≥ 1` calls made one after the other all
return and leave the same world as a single call does. -/
theorem Close_idempotent (cms : Option MongoConnConfig → Except GoError Session)
    (w0 w1 : World) (em : Emitter) (k : Nat) (hp : Pristine w0)
    (hs : Start cms w0 em = .ret (w1, none)) (hk : 1 ≤ k) :
    (∀ sched w, exec w1 sched = some w →
      w.panicked = false ∧ w.cancelCalls ≤ 1 ∧ w.wgWaitCalls ≤ 1 ∧
      w.closedSessions.length ≤ 1 ∧
      (ClosePc.returned ∈ w.closers →
        w.cancelCalls = 1 ∧ w.wgWaitCalls = 1 ∧
        w.closedSessions.map some = [w1.plugin.mongoSession] ∧
        w.cancelled.map some = [w1.plugin.ctx])) ∧
    ∃ wk wOnce, exec w1 (closeSchedule k) = some wk ∧
      exec w1 (closeSchedule 1) = some wOnce ∧
      wk.closers = List.replicate k .returned ∧
      wk.forgetClosers = wOnce.forgetClosers ∧
      wk.panicked = false ∧ wk.cancelCalls = 1 ∧ wk.wgWaitCalls = 1 ∧
      wk.closedSessions.map some = [w1.plugin.mongoSession] := by
  obtain ⟨cfg, session, source, store, -, -, -, hstore, rfl⟩ := start_ok hs
  have hinv := inv_started hp em cfg session source store hstore
  constructor
  · intro sched w hw
    have h := inv_exec sched _ w hinv hw
    obtain ⟨h1, h2, h3, h4, h5⟩ := invClose_counts h.close
    refine ⟨h.base.notPanicked, h4, by omega, by omega, ?_⟩
    intro hr
    obtain ⟨⟨e1, e2, e3, e4⟩, -⟩ :=
      h.close.finished (h.close.returned _ hr rfl)
    refine ⟨e1, e2, ?_, ?_⟩
    · rw [e3]; rfl
    · rw [e4]; rfl
  · obtain ⟨n, rfl⟩ : ∃ n, k = n + 1 := ⟨k - 1, by omega⟩
    have hfirst := exec_first_close hp em cfg session source store
    have hmore := exec_moreCalls n 1 (closedWorld w0 em cfg session source store 1)
      (by rw [pristine_eq hp]; rfl) rfl rfl
    refine ⟨{ closedWorld w0 em cfg session source store 1 with
                closers := List.replicate (1 + n) .returned },
      closedWorld w0 em cfg session source store 1, ?_, ?_, ?_, rfl, ?_, rfl, rfl, rfl⟩
    · simp only [closeSchedule]
      rw [exec_append, hfirst]
      exact hmore
    · simp only [closeSchedule, moreCalls, List.append_nil]
      exact hfirst
    · simp [Nat.add_comm]
    · rw [pristine_eq hp]; rfl

/-- C4. On a plugin on which `Start` returned nil, in every world a schedule leads
to: as soon as a caller of `Close` stands at `plugin.mongoSession.Close()` or the
session has been closed, both goroutines of `Start` have finished (their `Run`
returned and their `wg.Done()` ran), the cancellation was issued and `wg.Wait()`
was called; the calls happen in the order cancel, wait, close. -/
theorem session_closed_after_tasks
    (cms : Option MongoConnConfig → Except GoError Session)
    (w0 w1 : World) (em : Emitter) (hp : Pristine w0)
    (hs : Start cms w0 em = .ret (w1, none)) :
    ∀ sched w, exec w1 sched = some w →
      w.closedSessions.length ≤ w.wgWaitCalls ∧ w.wgWaitCalls ≤ w.cancelCalls ∧
      ((w.closedSessions ≠ [] ∨ ClosePc.closeSession ∈ w.closers) →
        w.goroutines = w1.goroutines.map Goroutine.finish ∧ w.plugin.wg = 0 ∧
        w.cancelCalls = 1 ∧ w.wgWaitCalls = 1 ∧
        w.cancelled.map some = [w1.plugin.ctx]) := by
  obtain ⟨cfg, session, source, store, -, -, -, hstore, rfl⟩ := start_ok hs
  have hinv := inv_started hp em cfg session source store hstore
  intro sched w hw
  have h := inv_exec sched _ w hinv hw
  obtain ⟨h1, h2, h3, h4, h5⟩ := invClose_counts h.close
  have hg0 : w0.goroutines = [] := hp.2.2.1
  refine ⟨h2, h3, ?_⟩
  intro hor
  have hwg : w.plugin.wg = 0 ∧ w.cancelCalls = 1 ∧ w.wgWaitCalls = 1 ∧
      w.cancelled = [⟨w0.nextCtx⟩] := by
    rcases hor with hne | hm
    · rcases h1 with h1 | ⟨h1, hz⟩
      · exact absurd h1 hne
      · have hl : w.closedSessions.length = 1 := by rw [h1]; rfl
        have hc : w.cancelCalls = 1 := by omega
        exact ⟨hz, hc, by omega, h5 hc⟩
    · exact invClose_at_closeSession h.close hm
  obtain ⟨e1, e2, e3, e4⟩ := hwg
  refine ⟨?_, e1, e2, e3, ?_⟩
  · rw [invBase_all_exited h.base e1]
    simp [startedWorld, hg0, Goroutine.finish]
  · rw [e4]; rfl

/-! ## `Done` -/

theorem wgDone_position (w : World) : (wgDone w).position = w.position := by
  unfold wgDone
  split <;> rfl

theorem step_position {w w2 : World} {a : Action} (hs : step w a = some w2) :
    w2.position = w.position ∨
      ∃ (i : Nat) (t : OplogTailer), w.goroutines[i]? = some (Goroutine.runTailer t .run) := by
  unfold step at hs
  split at hs
  · cases hs
  cases a with
  | task i =>
    left
    simp only [stepTask] at hs
    split at hs <;> cases hs <;> first | rfl | exact wgDone_position _
  | put i v =>
    right
    change stepPut w i v = some w2 at hs
    unfold stepPut at hs
    split at hs
    · rename_i t hi
      exact ⟨i, t, hi⟩
    · cases hs
  | callClose =>
    cases hs
    exact Or.inl rfl
  | close i =>
    left
    simp only [stepClose] at hs
    repeat' split at hs
    all_goals first | cases hs; rfl | cases hs
  | callDone =>
    cases hs
    exact Or.inl rfl
  | done i =>
    left
    simp only [stepDone] at hs
    repeat' split at hs
    all_goals first | cases hs; rfl | cases hs

theorem done_completes (w : World) (l : List DoneCall) (t : OplogTailer) (ps : PositionStore)
    (hd : w.dones = l ++ [⟨.wait, [], false⟩]) (hnp : w.panicked = false)
    (ht : w.plugin.oplogTailer = some t) (hex : t ∈ w.loopExited)
    (hps : w.plugin.positionStore = some ps) :
    exec w [.done l.length, .done l.length, .done l.length, .done l.length] =
      some { w with dones := l ++ [⟨.exited, [w.position], true⟩] } := by
  simp [exec, step, stepDone, OplogTailer.waitReturns, hd, hnp, ht, hex, hps]

theorem doneOK_facts {t : OplogTailer} {w : World} {d : DoneCall} (h : DoneOK t w d) :
    d.delivered.length ≤ 1 ∧ (d.closed = true → d.delivered = [w.position]) ∧
    (∀ v ∈ d.delivered, v = w.position) ∧ (∀ v, d.pc = .send v → v = w.position) ∧
    (d.pc ≠ .wait → t ∈ w.loopExited) := by
  unfold DoneOK at h
  split at h <;> rename_i hpc <;> simp_all

/-- C6. On a plugin on which `Start` returned nil, in every world a schedule leads
to, the channel of every call of `Done` has delivered at most one value, is closed
only after delivering one, and the value it delivers (or is sending) is what the
position store holds; its goroutine leaves `plugin.Wait()` only once no tailer
goroutine is inside `Run`, and from then on no step changes the position store, so
the value is the final position. Every call of `Done` can run to its end: the
channel then has delivered exactly the position and is closed. -/
theorem Done_delivers_final_position
    (cms : Option MongoConnConfig → Except GoError Session)
    (w0 w1 : World) (em : Emitter) (hp : Pristine w0)
    (hs : Start cms w0 em = .ret (w1, none)) :
    (∀ sched w, exec w1 sched = some w → ∀ d ∈ w.dones,
      d.delivered.length ≤ 1 ∧
      (d.closed = true → d.delivered = [w.position]) ∧
      (∀ v ∈ d.delivered, v = w.position) ∧
      (∀ v, d.pc = .send v → v = w.position) ∧
      (d.pc ≠ .wait →
        (∀ (i : Nat) (t : OplogTailer), w.goroutines[i]? ≠ some (Goroutine.runTailer t .run)) ∧
        ∀ a w2, step w a = some w2 → w2.position = w.position)) ∧
    (∀ sched w, exec w1 sched = some w →
      ∃ sched2 w2, exec (Done w) sched2 = some w2 ∧
        w2.dones[w.dones.length]? = some ⟨.exited, [w2.position], true⟩) := by
  obtain ⟨cfg, session, source, store, -, -, -, hstore, rfl⟩ := start_ok hs
  have hinv := inv_started hp em cfg session source store hstore
  constructor
  · intro sched w hw d hd
    have h := inv_exec sched _ w hinv hw
    obtain ⟨f1, f2, f3, f4, f5⟩ := doneOK_facts (h.dones d hd)
    refine ⟨f1, f2, f3, f4, ?_⟩
    intro hpc
    have hex := f5 hpc
    obtain ⟨p, q, hg, -, hle⟩ := h.base.tasks
    have hprun : p ≠ .run := hle.mp hex
    have hno : ∀ (i : Nat) (t1 : OplogTailer),
        w.goroutines[i]? ≠ some (Goroutine.runTailer t1 .run) := by
      intro i t1 hi
      rw [hg] at hi
      match i, hi with
      | 0, hi =>
        simp only [List.getElem?_cons_zero, Option.some.injEq, Goroutine.runTailer.injEq] at hi
        exact hprun hi.2
      | 1, hi => simp at hi
      | n + 2, hi => simp at hi
    refine ⟨hno, ?_⟩
    intro a w2 hst
    rcases step_position hst with h1 | ⟨i, t1, hi⟩
    · exact h1
    · exact absurd hi (hno i t1)
  · intro sched w hw
    have h := inv_Done (inv_exec sched _ w hinv hw)
    obtain ⟨ps, hps⟩ := h.base.store
    obtain ⟨p, q, hg, -, hle⟩ := h.base.tasks
    by_cases hrun : p = .run
    · subst hrun
      have hst : step (Done w) (.task 0) =
          some { Done w with
                 goroutines := (Done w).goroutines.set 0
                   (.runTailer (startedTailer w0 em cfg session source store) .deferred),
                 loopExited := startedTailer w0 em cfg session source store ::
                   (Done w).loopExited } := by
        simp only [step, h.base.notPanicked, Bool.false_eq_true, if_false, stepTask, hg,
          List.getElem?_cons_zero]
      have hrest := done_completes
        { Done w with
          goroutines := (Done w).goroutines.set 0
            (.runTailer (startedTailer w0 em cfg session source store) .deferred),
          loopExited := startedTailer w0 em cfg session source store :: (Done w).loopExited }
        w.dones (startedTailer w0 em cfg session source store) ps
        rfl h.base.notPanicked h.base.tailer (List.mem_cons_self _ _) hps
      exact ⟨_, _, (exec_cons_of_step hst _).trans hrest, by simp⟩
    · have hex := hle.mpr hrun
      have hrest := done_completes (Done w) w.dones
        (startedTailer w0 em cfg session source store) ps
        rfl h.base.notPanicked h.base.tailer hex hps
      exact ⟨_, _, hrest, by simp⟩

/-! ## A concrete plugin, evaluated -/

theorem Close_idempotent_witness :
    Pristine sampleWorld ∧ Start sampleConnect sampleWorld ⟨5⟩ = .ret (sampleStarted, none) ∧
    1 ≤ 3 ∧
    ((∀ sched w, exec sampleStarted sched = some w →
      w.panicked = false ∧ w.cancelCalls ≤ 1 ∧ w.wgWaitCalls ≤ 1 ∧
      w.closedSessions.length ≤ 1 ∧
      (ClosePc.returned ∈ w.closers →
        w.cancelCalls = 1 ∧ w.wgWaitCalls = 1 ∧
        w.closedSessions.map some = [sampleStarted.plugin.mongoSession] ∧
        w.cancelled.map some = [sampleStarted.plugin.ctx])) ∧
    ∃ wk wOnce, exec sampleStarted (closeSchedule 3) = some wk ∧
      exec sampleStarted (closeSchedule 1) = some wOnce ∧
      wk.closers = List.replicate 3 .returned ∧
      wk.forgetClosers = wOnce.forgetClosers ∧
      wk.panicked = false ∧ wk.cancelCalls = 1 ∧ wk.wgWaitCalls = 1 ∧
      wk.closedSessions.map some = [sampleStarted.plugin.mongoSession]) :=
  ⟨by decide, rfl, by decide,
    Close_idempotent sampleConnect sampleWorld sampleStarted ⟨5⟩ 3 (by decide) rfl (by decide)⟩

theorem session_closed_after_tasks_witness :
    Pristine sampleWorld ∧ Start sampleConnect sampleWorld ⟨5⟩ = .ret (sampleStarted, none) ∧
    ∀ sched w, exec sampleStarted sched = some w →
      w.closedSessions.length ≤ w.wgWaitCalls ∧ w.wgWaitCalls ≤ w.cancelCalls ∧
      ((w.closedSessions ≠ [] ∨ ClosePc.closeSession ∈ w.closers) →
        w.goroutines = sampleStarted.goroutines.map Goroutine.finish ∧ w.plugin.wg = 0 ∧
        w.cancelCalls = 1 ∧ w.wgWaitCalls = 1 ∧
        w.cancelled.map some = [sampleStarted.plugin.ctx]) :=
  ⟨by decide, rfl,
    session_closed_after_tasks sampleConnect sampleWorld sampleStarted ⟨5⟩ (by decide) rfl⟩

theorem Done_delivers_final_position_witness :
    Pristine sampleWorld ∧ Start sampleConnect sampleWorld ⟨5⟩ = .ret (sampleStarted, none) ∧
    ((∀ sched w, exec sampleStarted sched = some w → ∀ d ∈ w.dones,
      d.delivered.length ≤ 1 ∧
      (d.closed = true → d.delivered = [w.position]) ∧
      (∀ v ∈ d.delivered, v = w.position) ∧
      (∀ v, d.pc = .send v → v = w.position) ∧
      (d.pc ≠ .wait →
        (∀ (i : Nat) (t : OplogTailer), w.goroutines[i]? ≠ some (Goroutine.runTailer t .run)) ∧
        ∀ a w2, step w a = some w2 → w2.position = w.position)) ∧
    (∀ sched w, exec sampleStarted sched = some w →
      ∃ sched2 w2, exec (Done w) sched2 = some w2 ∧
        w2.dones[w.dones.length]? = some ⟨.exited, [w2.position], true⟩)) :=
  ⟨by decide, rfl,
    Done_delivers_final_position sampleConnect sampleWorld sampleStarted ⟨5⟩ (by decide) rfl⟩

theorem Start_shares_context_witness :
    Start sampleConnect sampleWorld ⟨5⟩ = .ret (sampleStarted, none) ∧
    ∃ t c x,
      sampleStarted.plugin.oplogTailer = some t ∧ sampleStarted.plugin.oplogChecker = some c ∧
      t.opts.ctx = x ∧ c.ctx = x ∧ t.opts.oplogChecker = c ∧
      sampleStarted.plugin.ctx = some x ∧ sampleStarted.plugin.cancel = some ⟨x⟩ ∧
      sampleStarted.plugin.wg = sampleWorld.plugin.wg + 2 ∧
      sampleStarted.goroutines =
        sampleWorld.goroutines ++ [.runTailer t .run, .runChecker c .run] ∧
      ∀ (w : World) (i : Nat), w.plugin.cancel = sampleStarted.plugin.cancel →
        w.closers[i]? = some .cancel →
        ∃ w2, stepClose w i = some w2 ∧ w2.cancelCalls = w.cancelCalls + 1 ∧
          t.opts.ctx ∈ w2.cancelled ∧ c.ctx ∈ w2.cancelled :=
  ⟨rfl, Start_shares_context sampleConnect sampleWorld sampleStarted ⟨5⟩ rfl⟩

theorem Start_session_error_witness :
    sampleWorld.plugin.cfg = some ⟨some ⟨"host"⟩, none, none⟩ ∧
    sampleRefuse (some ⟨"host"⟩) = .error (.external 2) ∧
    ∃ w1, Start sampleRefuse sampleWorld ⟨5⟩ = .ret (w1, some (.Trace (.external 2))) ∧
      w1.goroutines = sampleWorld.goroutines ∧ w1.plugin.wg = sampleWorld.plugin.wg ∧
      w1.plugin.mongoSession = sampleWorld.plugin.mongoSession ∧
      w1.plugin.oplogTailer = sampleWorld.plugin.oplogTailer ∧
      w1.plugin.oplogChecker = sampleWorld.plugin.oplogChecker ∧
      w1.plugin = { sampleWorld.plugin with emitter := some ⟨5⟩, ctx := w1.plugin.ctx,
                                            cancel := w1.plugin.cancel } :=
  ⟨rfl, rfl, Start_session_error sampleRefuse sampleWorld ⟨5⟩ ⟨some ⟨"host"⟩, none, none⟩
    (.external 2) rfl rfl⟩

end mongooplog

namespace mysqlstream

/-! ## Interval union never loses an interval -/

theorem Interval.within_refl (a : Interval) : a.within a := ⟨le_refl _, le_refl _⟩

theorem Interval.within_trans {a b c : Interval} (h1 : a.within b) (h2 : b.within c) :
    a.within c := ⟨le_trans h2.1 h1.1, le_trans h1.2 h2.2⟩

theorem addInterval_covers : ∀ (l : List Interval) (iv j : Interval),
    j = iv ∨ j ∈ l → ∃ k ∈ addInterval iv l, j.within k
  | [], iv, j, h => by
    rcases h with h | h
    · exact ⟨iv, by simp [addInterval], h ▸ Interval.within_refl _⟩
    · cases h
  | x :: rest, iv, j, h => by
    unfold addInterval
    split
    · refine ⟨j, ?_, Interval.within_refl _⟩
      rcases h with h | h
      · simp [h]
      · exact List.mem_cons_of_mem _ h
    · split
      · rcases h with h | h
        · obtain ⟨k, hk, hw⟩ := addInterval_covers rest iv j (Or.inl h)
          exact ⟨k, List.mem_cons_of_mem _ hk, hw⟩
        · rcases List.mem_cons.mp h with h | h
          · exact ⟨x, by simp, h ▸ Interval.within_refl _⟩
          · obtain ⟨k, hk, hw⟩ := addInterval_covers rest iv j (Or.inr h)
            exact ⟨k, List.mem_cons_of_mem _ hk, hw⟩
      · have hmerged : ∀ m : Interval, m = iv ∨ m = x →
            m.within ⟨min iv.start x.start, max iv.stop x.stop⟩ := by
          intro m hm
          rcases hm with hm | hm <;> subst hm <;> constructor <;> simp
        rcases h with h | h
        · obtain ⟨k, hk, hw⟩ := addInterval_covers rest
            ⟨min iv.start x.start, max iv.stop x.stop⟩ _ (Or.inl rfl)
          exact ⟨k, hk, Interval.within_trans (hmerged j (Or.inl h)) hw⟩
        · rcases List.mem_cons.mp h with h | h
          · obtain ⟨k, hk, hw⟩ := addInterval_covers rest
              ⟨min iv.start x.start, max iv.stop x.stop⟩ _ (Or.inl rfl)
            exact ⟨k, hk, Interval.within_trans (hmerged j (Or.inr h)) hw⟩
          · exact addInterval_covers rest _ j (Or.inr h)

theorem unionIntervals_covers : ∀ (b a : List Interval) (j : Interval),
    j ∈ a ∨ j ∈ b → ∃ k ∈ unionIntervals a b, j.within k
  | [], a, j, h => by
    rcases h with h | h
    · exact ⟨j, by simpa [unionIntervals] using h, Interval.within_refl _⟩
    · cases h
  | iv :: rest, a, j, h => by
    have hstep : unionIntervals a (iv :: rest) = unionIntervals (addInterval iv a) rest := rfl
    rw [hstep]
    have hfirst : j ∈ rest ∨ ∃ k ∈ addInterval iv a, j.within k := by
      rcases h with h | h
      · exact Or.inr (addInterval_covers a iv j (Or.inr h))
      · rcases List.mem_cons.mp h with h | h
        · exact Or.inr (addInterval_covers a iv j (Or.inl h))
        · exact Or.inl h
    rcases hfirst with h | ⟨k, hk, hw⟩
    · exact unionIntervals_covers rest _ j (Or.inr h)
    · obtain ⟨k2, hk2, hw2⟩ := unionIntervals_covers rest _ k (Or.inl hk)
      exact ⟨k2, hk2, Interval.within_trans hw hw2⟩

/-! ## Looking an identity up in the reconciled set -/

theorem find_map_sid (f : UUIDSet → UUIDSet) (hf : ∀ e, (f e).SID = e.SID) (sid : String) :
    ∀ l : List UUIDSet, (l.map f).find? (fun e => e.SID = sid) =
      (l.find? (fun e => e.SID = sid)).map f
  | [] => rfl
  | e :: l => by
    simp only [List.map_cons, List.find?_cons, hf]
    split
    · rfl
    · exact find_map_sid f hf sid l

theorem find_append_some {p : UUIDSet → Bool} {l1 l2 : List UUIDSet} {e : UUIDSet}
    (h : l1.find? p = some e) : (l1 ++ l2).find? p = some e := by
  simp [List.find?_append, h]

theorem find_append_none {p : UUIDSet → Bool} {l1 l2 : List UUIDSet}
    (h : l1.find? p = none) : (l1 ++ l2).find? p = l2.find? p := by
  simp [List.find?_append, h]

theorem reconcile_get_live (stored live : MysqlGTIDSet) (sid : String) (l : List Interval)
    (h : live.get sid = some l) :
    (reconcile stored live).get sid =
      some (match stored.get sid with
            | some s => unionIntervals s l
            | none => l) := by
  unfold MysqlGTIDSet.get at h
  cases hf : live.Sets.find? (fun e => e.SID = sid) with
  | none => rw [hf] at h; simp at h
  | some e =>
    rw [hf] at h
    simp only [Option.map_some', Option.some.injEq] at h
    have hsid : e.SID = sid := by simpa using List.find?_some hf
    subst hsid
    subst h
    have hfound : (reconcile stored live).Sets.find? (fun x => x.SID = e.SID) =
        some (match stored.get e.SID with
              | some s => (⟨e.SID, unionIntervals s e.Intervals⟩ : UUIDSet)
              | none => e) := by
      unfold reconcile
      apply find_append_some
      rw [find_map_sid _ (by intro e; split <;> rfl), hf]
      rfl
    show ((reconcile stored live).Sets.find? (fun x => x.SID = e.SID)).map UUIDSet.Intervals = _
    rw [hfound]
    cases stored.get e.SID <;> rfl

theorem reconcile_get_stored_only (stored live : MysqlGTIDSet) (sid : String)
    (h : live.get sid = none) : (reconcile stored live).get sid = stored.get sid := by
  have hnone : live.Sets.find? (fun e => e.SID = sid) = none := by
    simpa [MysqlGTIDSet.get] using h
  have hfound : (reconcile stored live).Sets.find? (fun x => x.SID = sid) =
      stored.Sets.find? (fun x => x.SID = sid) := by
    unfold reconcile
    rw [find_append_none (by rw [find_map_sid _ (by intro e; split <;> rfl), hnone]; rfl)]
    induction stored.Sets with
    | nil => rfl
    | cons e rest ih =>
      by_cases he : e.SID = sid
      · subst he
        simp [List.filter_cons, h]
      · by_cases hk : (live.get e.SID).isNone = true
        · simp [List.filter_cons, hk, he, ih]
        · simp [List.filter_cons, hk, he, ih]
  show ((reconcile stored live).Sets.find? (fun x => x.SID = sid)).map UUIDSet.Intervals = _
  rw [hfound]
  rfl

theorem fixGTID_ok (db : MySQLStatusGetter) (pos : MySQLBinlogPosition)
    (S L : MysqlGTIDSet) (p : Position) (u : String)
    (hS : ParseMysqlGTIDSet pos.BinlogGTID = .ok S)
    (hL : db.GetMasterStatus = .ok (p, L)) (hU : db.GetServerUUID = .ok u) :
    fixGTID db pos = .ok { pos with BinlogGTID := (reconcile S L).String } := by
  simp only [fixGTID, hU, hL, hS]

/-! ## The text does not depend on the iteration order -/

theorem find_of_mem_nodup {e : UUIDSet} : ∀ (l : List UUIDSet),
    (l.map UUIDSet.SID).Nodup → e ∈ l → l.find? (fun x => x.SID = e.SID) = some e
  | [], _, he => by cases he
  | x :: rest, hn, he => by
    simp only [List.map_cons, List.nodup_cons] at hn
    rcases List.mem_cons.mp he with h | h
    · subst h
      simp
    · have hne : x.SID ≠ e.SID := by
        intro hx
        exact hn.1 (hx ▸ List.mem_map_of_mem UUIDSet.SID h)
      simp only [List.find?_cons, hne, decide_False]
      exact find_of_mem_nodup rest hn.2 h

theorem get_eq_some_of_mem {s : MysqlGTIDSet} (hn : s.NodupKeys) {e : UUIDSet}
    (he : e ∈ s.Sets) : s.get e.SID = some e.Intervals := by
  unfold MysqlGTIDSet.get
  rw [find_of_mem_nodup s.Sets hn he]
  rfl

theorem mem_of_get_eq_some {s : MysqlGTIDSet} {sid : String} {ivs : List Interval}
    (h : s.get sid = some ivs) : (⟨sid, ivs⟩ : UUIDSet) ∈ s.Sets := by
  unfold MysqlGTIDSet.get at h
  cases hf : s.Sets.find? (fun e => e.SID = sid) with
  | none => rw [hf] at h; cases h
  | some x =>
    rw [hf] at h
    simp only [Option.map_some', Option.some.injEq] at h
    have hsid : x.SID = sid := by simpa using List.find?_some hf
    have hx : x = ⟨sid, ivs⟩ := by
      cases x
      simp only at hsid h
      subst hsid
      subst h
      rfl
    rw [← hx]
    exact List.mem_of_find?_eq_some hf

theorem perm_of_same_get {s t : MysqlGTIDSet} (hs : s.NodupKeys) (ht : t.NodupKeys)
    (h : ∀ sid, s.get sid = t.get sid) : s.Sets.Perm t.Sets := by
  rw [List.perm_ext_iff_of_nodup (List.Nodup.of_map _ hs) (List.Nodup.of_map _ ht)]
  intro e
  constructor
  · intro he
    have := get_eq_some_of_mem hs he
    rw [h] at this
    exact mem_of_get_eq_some this
  · intro he
    have := get_eq_some_of_mem ht he
    rw [← h] at this
    exact mem_of_get_eq_some this

theorem get_eq_none_iff (s : MysqlGTIDSet) (sid : String) :
    s.get sid = none ↔ sid ∉ s.Sets.map UUIDSet.SID := by
  unfold MysqlGTIDSet.get
  simp only [Option.map_eq_none', List.find?_eq_none, decide_eq_true_eq, List.mem_map, not_exists,
    not_and]

theorem reconcile_keys (stored live : MysqlGTIDSet) :
    (reconcile stored live).Sets.map UUIDSet.SID =
      live.Sets.map UUIDSet.SID ++
        (stored.Sets.filter (fun e => (live.get e.SID).isNone)).map UUIDSet.SID := by
  unfold reconcile
  simp only [List.map_append, List.map_map]
  congr 1
  apply List.map_congr_left
  intro e _
  simp only [Function.comp]
  split <;> rfl

theorem reconcile_nodupKeys {stored live : MysqlGTIDSet} (hs : stored.NodupKeys)
    (hl : live.NodupKeys) : (reconcile stored live).NodupKeys := by
  unfold MysqlGTIDSet.NodupKeys
  rw [reconcile_keys, List.nodup_append]
  refine ⟨hl, ?_, ?_⟩
  · exact List.Nodup.sublist (List.Sublist.map _ (List.filter_sublist _)) hs
  · intro sid h1 h2
    obtain ⟨e, he, rfl⟩ := List.mem_map.mp h2
    have hnone : live.get e.SID = none := by
      have := (List.mem_filter.mp he).2
      simpa using this
    exact (get_eq_none_iff live e.SID).mp hnone h1

theorem reconcile_perm {S T L M : MysqlGTIDSet} (hS : S.NodupKeys) (hT : T.NodupKeys)
    (hL : L.NodupKeys) (hM : M.NodupKeys) (hst : ∀ sid, S.get sid = T.get sid)
    (hlm : ∀ sid, L.get sid = M.get sid) :
    (reconcile S L).Sets.Perm (reconcile T M).Sets := by
  unfold reconcile
  have hf : (fun e : UUIDSet =>
      match S.get e.SID with
      | some s => (⟨e.SID, unionIntervals s e.Intervals⟩ : UUIDSet)
      | none => e) =
      (fun e : UUIDSet =>
      match T.get e.SID with
      | some s => (⟨e.SID, unionIntervals s e.Intervals⟩ : UUIDSet)
      | none => e) := by
    funext e
    rw [hst]
  have hp : (fun e : UUIDSet => (L.get e.SID).isNone) =
      (fun e : UUIDSet => (M.get e.SID).isNone) := by
    funext e
    rw [hlm]
  simp only [hf, hp]
  exact List.Perm.append ((perm_of_same_get hL hM hlm).map _)
    ((perm_of_same_get hS hT hst).filter _)

theorem sortSets_sorted (l : List UUIDSet) :
    (sortSets l).Sorted (fun a b => a.SID.data ≤ b.SID.data) := by
  unfold sortSets
  haveI : IsTotal UUIDSet (fun a b => a.SID.data ≤ b.SID.data) :=
    ⟨fun a b => le_total a.SID.data b.SID.data⟩
  haveI : IsTrans UUIDSet (fun a b => a.SID.data ≤ b.SID.data) :=
    ⟨fun a b c h1 h2 => le_trans h1 h2⟩
  exact List.sorted_insertionSort _ l

theorem sortSets_perm (l : List UUIDSet) : (sortSets l).Perm l :=
  List.perm_insertionSort _ l

theorem sortSets_strict {l : List UUIDSet} (hn : (l.map UUIDSet.SID).Nodup) :
    (sortSets l).Sorted (fun a b => a.SID.data < b.SID.data) := by
  have hs := sortSets_sorted l
  have hne : (sortSets l).Pairwise (fun a b => a.SID ≠ b.SID) := by
    have h1 : ((sortSets l).map UUIDSet.SID).Nodup :=
      ((sortSets_perm l).map UUIDSet.SID).nodup_iff.mpr hn
    exact List.pairwise_map.mp h1
  have hboth := List.Pairwise.and hs hne
  refine List.Pairwise.imp ?_ hboth
  intro a b hab
  refine lt_of_le_of_ne hab.1 ?_
  intro hd
  exact hab.2 (String.ext hd)

theorem sortSets_eq_of_perm {l m : List UUIDSet} (hp : l.Perm m)
    (hn : (l.map UUIDSet.SID).Nodup) : sortSets l = sortSets m := by
  have hm : (m.map UUIDSet.SID).Nodup := (hp.map UUIDSet.SID).nodup_iff.mp hn
  haveI : IsAntisymm UUIDSet (fun a b => a.SID.data < b.SID.data) :=
    ⟨fun a b h1 h2 => absurd h1 (lt_asymm h2)⟩
  exact List.eq_of_perm_of_sorted
    (((sortSets_perm l).trans hp).trans (sortSets_perm m).symm)
    (sortSets_strict hn) (sortSets_strict hm)

/-! ## What the parser returns is a map -/

theorem AddSet_nodupKeys {s : MysqlGTIDSet} (hs : s.NodupKeys) (set : UUIDSet) :
    (s.AddSet set).NodupKeys := by
  unfold MysqlGTIDSet.AddSet
  split
  · unfold MysqlGTIDSet.NodupKeys at hs ⊢
    have : (s.Sets.map (fun e =>
        if e.SID = set.SID then (⟨e.SID, unionIntervals e.Intervals set.Intervals⟩ : UUIDSet)
        else e)).map UUIDSet.SID = s.Sets.map UUIDSet.SID := by
      simp only [List.map_map]
      apply List.map_congr_left
      intro e _
      simp only [Function.comp]
      split <;> rfl
    simp only [this]
    exact hs
  · rename_i hany
    unfold MysqlGTIDSet.NodupKeys at hs ⊢
    simp only [List.map_append, List.map_cons, List.map_nil]
    rw [List.nodup_append]
    refine ⟨hs, List.nodup_singleton _, ?_⟩
    intro sid h1 h2
    simp only [List.mem_singleton] at h2
    subst h2
    apply hany
    obtain ⟨e, he, hsid⟩ := List.mem_map.mp h1
    simp only [List.any_eq_true, decide_eq_true_eq]
    exact ⟨e, he, hsid⟩

theorem foldl_AddSet_nodupKeys : ∀ (sets : List UUIDSet) (s : MysqlGTIDSet), s.NodupKeys →
    (sets.foldl MysqlGTIDSet.AddSet s).NodupKeys
  | [], _, hs => hs
  | x :: rest, s, hs => foldl_AddSet_nodupKeys rest (s.AddSet x) (AddSet_nodupKeys hs x)

theorem Parse_nodupKeys {str : String} {s : MysqlGTIDSet}
    (h : ParseMysqlGTIDSet str = .ok s) : s.NodupKeys := by
  unfold ParseMysqlGTIDSet at h
  split at h
  · cases h
    exact List.nodup_nil
  · split at h
    · cases h
    · cases h
      exact foldl_AddSet_nodupKeys _ _ List.nodup_nil

theorem same_get_of_perm {s t : MysqlGTIDSet} (hs : s.NodupKeys) (hp : s.Sets.Perm t.Sets)
    (sid : String) : s.get sid = t.get sid := by
  have ht : t.NodupKeys := ((hp.map UUIDSet.SID).nodup_iff).mp hs
  cases h : s.get sid with
  | none =>
    have h1 := (get_eq_none_iff s sid).mp h
    have h2 : sid ∉ t.Sets.map UUIDSet.SID := fun hm => h1 ((hp.map UUIDSet.SID).mem_iff.mpr hm)
    exact ((get_eq_none_iff t sid).mpr h2).symm
  | some ivs =>
    have hm := hp.mem_iff.mp (mem_of_get_eq_some h)
    exact (get_eq_some_of_mem ht hm).symm

/-! ## Intervals in normal form -/

theorem Normal.tail {a : Interval} {l : List Interval} (h : Normal (a :: l)) : Normal l := by
  cases l with
  | nil => trivial
  | cons b rest => exact h.2.2

theorem Normal.head {a : Interval} {l : List Interval} (h : Normal (a :: l)) :
    a.start ≤ a.stop := by
  cases l with
  | nil => exact h
  | cons b rest => exact h.1

theorem Normal.headFrom {a : Interval} {l : List Interval} (h : Normal (a :: l)) :
    HeadFrom (a.stop + 2) l := by
  cases l with
  | nil => trivial
  | cons b rest =>
    have := h.2.1
    show a.stop + 2 ≤ b.start
    omega

theorem normal_cons {a : Interval} {l : List Interval} (ha : a.start ≤ a.stop)
    (hl : Normal l) (hf : HeadFrom (a.stop + 2) l) : Normal (a :: l) := by
  cases l with
  | nil => exact ha
  | cons b rest =>
    have : a.stop + 2 ≤ b.start := hf
    exact ⟨ha, by omega, hl⟩

theorem HeadFrom.mono {m n : Nat} {l : List Interval} (h : HeadFrom n l) (hmn : m ≤ n) :
    HeadFrom m l := by
  cases l with
  | nil => trivial
  | cons b rest => exact le_trans hmn h

theorem addInterval_normal : ∀ (l : List Interval) (iv : Interval),
    Normal l → iv.start ≤ iv.stop →
    Normal (addInterval iv l) ∧
      ∀ m, m ≤ iv.start → HeadFrom m l → HeadFrom m (addInterval iv l)
  | [], iv, _, hv => ⟨hv, fun _ hm _ => hm⟩
  | j :: rest, iv, hl, hv => by
    have hj := hl.head
    have hrest := hl.tail
    have hfrom := hl.headFrom
    unfold addInterval
    split
    · rename_i hlt
      exact ⟨⟨hv, hlt, hl⟩, fun _ hm _ => hm⟩
    · split
      · rename_i hgt
        obtain ⟨ihn, ihf⟩ := addInterval_normal rest iv hrest hv
        refine ⟨normal_cons hj ihn (ihf _ (by omega) hfrom), fun m _ hm => hm⟩
      · obtain ⟨ihn, ihf⟩ := addInterval_normal rest
          ⟨min iv.start j.start, max iv.stop j.stop⟩ hrest
          (le_trans (min_le_left _ _) (le_trans hv (le_max_left _ _)))
        refine ⟨ihn, fun m hm hmj => ihf m (le_min hm hmj) (hfrom.mono ?_)⟩
        have : m ≤ j.start := hmj
        omega

theorem addInterval_ne_nil (iv : Interval) : ∀ l : List Interval, addInterval iv l ≠ []
  | [] => by simp [addInterval]
  | j :: rest => by
    unfold addInterval
    split
    · simp
    · split
      · simp
      · exact addInterval_ne_nil _ rest

theorem unionIntervals_normal : ∀ (b a : List Interval), Normal a →
    (∀ iv ∈ b, iv.start ≤ iv.stop) → Normal (unionIntervals a b)
  | [], _, ha, _ => ha
  | iv :: rest, a, ha, hb =>
    unionIntervals_normal rest (addInterval iv a)
      (addInterval_normal a iv ha (hb iv (List.mem_cons_self _ _))).1
      (fun x hx => hb x (List.mem_cons_of_mem _ hx))

theorem unionIntervals_ne_nil : ∀ (b a : List Interval), a ≠ [] ∨ b ≠ [] →
    unionIntervals a b ≠ []
  | [], a, h => by
    rcases h with h | h
    · exact h
    · exact absurd rfl h
  | iv :: rest, a, _ =>
    unionIntervals_ne_nil rest (addInterval iv a) (Or.inl (addInterval_ne_nil iv a))

theorem Normal.valid : ∀ {l : List Interval}, Normal l → ∀ iv ∈ l, iv.start ≤ iv.stop
  | [], _, iv, h => by cases h
  | a :: rest, hl, iv, h => by
    rcases List.mem_cons.mp h with h | h
    · exact h ▸ hl.head
    · exact Normal.valid hl.tail iv h

theorem Normal.after : ∀ {l : List Interval} {a : Interval}, Normal (a :: l) →
    ∀ iv ∈ l, a.stop + 1 < iv.start
  | [], _, _, iv, h => by cases h
  | b :: rest, a, hl, iv, h => by
    have hab : a.stop + 1 < b.start := hl.2.1
    rcases List.mem_cons.mp h with h | h
    · exact h ▸ hab
    · have hb := Normal.after hl.2.2 iv h
      have hbv : b.start ≤ b.stop := hl.2.2.head
      omega

theorem addInterval_append : ∀ (p : List Interval) (iv : Interval),
    Normal (p ++ [iv]) → addInterval iv p = p ++ [iv]
  | [], _, _ => rfl
  | j :: p, iv, h => by
    have h' : Normal (j :: (p ++ [iv])) := h
    have hafter := h'.after iv (by simp)
    have hjv := h'.head
    have hiv := h'.valid iv (by simp)
    unfold addInterval
    rw [if_neg (by omega), if_pos hafter, addInterval_append p iv h'.tail]
    rfl

theorem Normal.initial : ∀ (p : List Interval) {q : List Interval}, Normal (p ++ q) → Normal p
  | [], _, _ => trivial
  | [a], q, h => by
    have h' : Normal (a :: q) := h
    exact h'.head
  | a :: b :: p, q, h => by
    have h' : Normal (a :: b :: (p ++ q)) := h
    exact ⟨h'.1, h'.2.1, Normal.initial (b :: p) h'.2.2⟩

theorem foldl_addInterval_normal : ∀ (ivs p : List Interval), Normal (p ++ ivs) →
    ivs.foldl (fun acc iv => addInterval iv acc) p = p ++ ivs
  | [], p, _ => by simp
  | iv :: rest, p, h => by
    have h1 : Normal ((p ++ [iv]) ++ rest) := by simpa using h
    rw [List.foldl_cons, addInterval_append p iv (Normal.initial _ h1),
      foldl_addInterval_normal rest (p ++ [iv]) h1]
    simp

theorem unionIntervals_nil_normal {ivs : List Interval} (h : Normal ivs) :
    unionIntervals [] ivs = ivs := by
  unfold unionIntervals
  rw [foldl_addInterval_normal ivs [] (by simpa using h)]
  rfl

/-! ## Decimal text reads back -/

theorem digitValue_digitChar (d : Nat) (h : d < 10) :
    digitValue (digitChar d) = some d ∧ IsDigit (digitChar d) := by
  interval_cases d <;> exact ⟨by decide, by decide⟩

theorem natTextAux_spec : ∀ (fuel n : Nat) (acc : List Char), n < fuel →
    ∃ (ds : List Char) (k : Nat), natTextAux fuel n acc = ds ++ acc ∧ ds ≠ [] ∧
      (∀ c ∈ ds, IsDigit c) ∧
      ∀ (a : Nat) (rest : List Char),
        parseNatAux a (ds ++ rest) = parseNatAux (a * 10 ^ k + n) rest
  | 0, _, _, h => by omega
  | fuel + 1, n, acc, h => by
    unfold natTextAux
    split
    · rename_i hlt
      obtain ⟨hv, hd⟩ := digitValue_digitChar n hlt
      refine ⟨[digitChar n], 1, rfl, by simp, ?_, ?_⟩
      · intro c hc
        simp only [List.mem_singleton] at hc
        exact hc ▸ hd
      · intro a rest
        simp only [List.singleton_append, parseNatAux, hv]
        congr 1
        omega
    · rename_i hge
      have hlt : n / 10 < fuel := by omega
      obtain ⟨ds, k, he, hne, hdig, hparse⟩ :=
        natTextAux_spec fuel (n / 10) (digitChar (n % 10) :: acc) hlt
      obtain ⟨hv, hd⟩ := digitValue_digitChar (n % 10) (Nat.mod_lt _ (by omega))
      refine ⟨ds ++ [digitChar (n % 10)], k + 1, by simp [he], by simp, ?_, ?_⟩
      · intro c hc
        rcases List.mem_append.mp hc with hc | hc
        · exact hdig c hc
        · simp only [List.mem_singleton] at hc
          exact hc ▸ hd
      · intro a rest
        rw [List.append_assoc, hparse]
        simp only [List.singleton_append, parseNatAux, hv]
        congr 1
        have := Nat.div_add_mod n 10
        rw [pow_succ]
        nlinarith [Nat.div_add_mod n 10]

theorem natText_spec (n : Nat) :
    natText n ≠ [] ∧ (∀ c ∈ natText n, IsDigit c) ∧ parseNat (natText n) = some n := by
  obtain ⟨ds, k, he, hne, hdig, hparse⟩ := natTextAux_spec (n + 1) n [] (Nat.lt_succ_self n)
  have he2 : natText n = ds := by simpa [natText] using he
  rw [he2]
  refine ⟨hne, hdig, ?_⟩
  have := hparse 0 []
  simp only [List.append_nil, zero_mul, zero_add, parseNatAux] at this
  cases ds with
  | nil => exact absurd rfl hne
  | cons c cs => exact this

/-! ## Splitting what was joined -/

theorem splitOn_ne_nil (sep : Char) : ∀ cs : List Char, splitOn sep cs ≠ []
  | [] => by simp [splitOn]
  | c :: cs => by
    unfold splitOn
    split
    · simp
    · split <;> simp

theorem splitOn_append_sep (sep : Char) : ∀ (x t : List Char), sep ∉ x →
    splitOn sep (x ++ sep :: t) = x :: splitOn sep t
  | [], t, _ => by simp [splitOn]
  | c :: x, t, h => by
    have hc : c ≠ sep := fun e => h (e ▸ List.mem_cons_self _ _)
    have hx : sep ∉ x := fun e => h (List.mem_cons_of_mem _ e)
    have ih := splitOn_append_sep sep x t hx
    show splitOn sep (c :: (x ++ sep :: t)) = _
    rw [splitOn, if_neg hc, ih]

theorem splitOn_no_sep (sep : Char) : ∀ (x : List Char), sep ∉ x → splitOn sep x = [x]
  | [], _ => rfl
  | c :: x, h => by
    have hc : c ≠ sep := fun e => h (e ▸ List.mem_cons_self _ _)
    have hx : sep ∉ x := fun e => h (List.mem_cons_of_mem _ e)
    rw [splitOn, if_neg hc, splitOn_no_sep sep x hx]

theorem splitOn_joinWith (sep : Char) : ∀ (ps : List (List Char)), ps ≠ [] →
    (∀ p ∈ ps, sep ∉ p) → splitOn sep (joinWith sep ps) = ps
  | [], h, _ => absurd rfl h
  | [x], _, hs => splitOn_no_sep sep x (hs x (by simp))
  | x :: y :: rest, _, hs => by
    rw [joinWith, splitOn_append_sep sep x _ (hs x (by simp)),
      splitOn_joinWith sep (y :: rest) (by simp)
        (fun p hp => hs p (List.mem_cons_of_mem _ hp))]

theorem mem_joinWith (sep : Char) : ∀ (ps : List (List Char)) (c : Char),
    c ∈ joinWith sep ps → c = sep ∨ ∃ p ∈ ps, c ∈ p
  | [], c, h => by cases h
  | [x], c, h => Or.inr ⟨x, by simp, h⟩
  | x :: y :: rest, c, h => by
    rw [joinWith] at h
    rcases List.mem_append.mp h with h | h
    · exact Or.inr ⟨x, by simp, h⟩
    · rcases List.mem_cons.mp h with h | h
      · exact Or.inl h
      · rcases mem_joinWith sep (y :: rest) c h with h | ⟨p, hp, hc⟩
        · exact Or.inl h
        · exact Or.inr ⟨p, List.mem_cons_of_mem _ hp, hc⟩

/-! ## An interval's text reads back -/

theorem IsDigit.ne_sep {c : Char} (h : IsDigit c) : c ≠ '-' ∧ c ≠ ':' ∧ c ≠ ',' := by
  refine ⟨?_, ?_, ?_⟩ <;> intro e <;> subst e <;> revert h <;> decide

theorem mem_intervalText (iv : Interval) (c : Char) (h : c ∈ iv.text) :
    IsDigit c ∨ c = '-' := by
  unfold Interval.text at h
  split at h
  · exact Or.inl ((natText_spec _).2.1 c h)
  · rcases List.mem_append.mp h with h | h
    · exact Or.inl ((natText_spec _).2.1 c h)
    · rcases List.mem_cons.mp h with h | h
      · exact Or.inr h
      · exact Or.inl ((natText_spec _).2.1 c h)

theorem intervalText_clean (iv : Interval) : ':' ∉ iv.text ∧ ',' ∉ iv.text := by
  constructor <;> intro h <;> rcases mem_intervalText iv _ h with h | h
  · exact h.ne_sep.2.1 rfl
  · revert h; decide
  · exact h.ne_sep.2.2 rfl
  · revert h; decide

theorem natText_no_dash (n : Nat) : '-' ∉ natText n :=
  fun h => ((natText_spec n).2.1 _ h).ne_sep.1 rfl

theorem parseInterval_text (iv : Interval) (h : iv.start ≤ iv.stop) :
    parseInterval iv.text = some iv := by
  unfold parseInterval Interval.text
  split_ifs with heq
  · rw [splitOn_no_sep _ _ (natText_no_dash _)]
    simp only [(natText_spec _).2.2, Option.map_some']
    cases iv
    simp only at heq
    subst heq
    rfl
  · rw [splitOn_append_sep _ _ _ (natText_no_dash _), splitOn_no_sep _ _ (natText_no_dash _)]
    simp only [(natText_spec _).2.2, h, if_true]

theorem parseInterval_valid {cs : List Char} {iv : Interval} (h : parseInterval cs = some iv) :
    iv.start ≤ iv.stop := by
  unfold parseInterval at h
  split at h
  · cases hp : parseNat _ with
    | none => rw [hp] at h; cases h
    | some n =>
      rw [hp] at h
      simp only [Option.map_some', Option.some.injEq] at h
      subst h
      exact le_refl _
  · split at h
    · split at h
      · rename_i hle
        cases h
        exact hle
      · cases h
    · cases h
  · cases h

/-! ## Reading a list of pieces -/

theorem mapM_some_cons {α β : Type} (f : α → Option β) (a : α) (l : List α) :
    (a :: l).mapM f =
      match f a with
      | none => none
      | some b =>
        match l.mapM f with
        | none => none
        | some bs => some (b :: bs) := by
  rw [List.mapM_cons]
  cases f a with
  | none => rfl
  | some b =>
    cases l.mapM f with
    | none => rfl
    | some bs => rfl

theorem mapM_map_eq_some {α β : Type} (f : α → Option β) (g : β → α) :
    ∀ (l : List β), (∀ x ∈ l, f (g x) = some x) → (l.map g).mapM f = some l
  | [], _ => rfl
  | x :: l, h => by
    rw [List.map_cons, mapM_some_cons, h x (List.mem_cons_self _ _),
      mapM_map_eq_some f g l (fun y hy => h y (List.mem_cons_of_mem _ hy))]

theorem mapM_eq_some_forall {α β : Type} (f : α → Option β) :
    ∀ (l : List α) (r : List β), l.mapM f = some r →
      r.length = l.length ∧ ∀ y ∈ r, ∃ x ∈ l, f x = some y
  | [], r, h => by
    simp only [List.mapM_nil] at h
    cases h
    exact ⟨rfl, fun y hy => by cases hy⟩
  | a :: l, r, h => by
    rw [mapM_some_cons] at h
    cases hfa : f a with
    | none => rw [hfa] at h; cases h
    | some b =>
      rw [hfa] at h
      cases hl : l.mapM f with
      | none => rw [hl] at h; cases h
      | some bs =>
        rw [hl] at h
        simp only [Option.some.injEq] at h
        subst h
        obtain ⟨h1, h2⟩ := mapM_eq_some_forall f l bs hl
        refine ⟨by simp [h1], ?_⟩
        intro y hy
        rcases List.mem_cons.mp hy with hy | hy
        · exact ⟨a, List.mem_cons_self _ _, hy ▸ hfa⟩
        · obtain ⟨x, hx, hfx⟩ := h2 y hy
          exact ⟨x, List.mem_cons_of_mem _ hx, hfx⟩

/-! ## An entry's text reads back -/

theorem mem_UUIDSet_text (e : UUIDSet) (c : Char) (h : c ∈ e.text) :
    c = ':' ∨ c ∈ e.SID.data ∨ IsDigit c ∨ c = '-' := by
  unfold UUIDSet.text at h
  rcases mem_joinWith ':' _ c h with h | ⟨p, hp, hc⟩
  · exact Or.inl h
  · rcases List.mem_cons.mp hp with hp | hp
    · exact Or.inr (Or.inl (hp ▸ hc))
    · obtain ⟨iv, -, rfl⟩ := List.mem_map.mp hp
      exact Or.inr (Or.inr (mem_intervalText iv c hc))

theorem UUIDSet_text_no_comma {e : UUIDSet} (h : e.WF) : ',' ∉ e.text := by
  intro hc
  rcases mem_UUIDSet_text e _ hc with hc | hc | hc | hc
  · revert hc; decide
  · exact h.2.1 hc
  · exact hc.ne_sep.2.2 rfl
  · revert hc; decide

theorem UUIDSet_text_ne_nil {e : UUIDSet} (h : e.WF) : e.text ≠ [] := by
  unfold UUIDSet.text
  cases hi : e.Intervals with
  | nil => exact absurd hi h.2.2.1
  | cons iv rest =>
    simp only [List.map_cons, joinWith]
    intro hnil
    have := congrArg List.length hnil
    simp at this

theorem ParseUUIDSet_text {e : UUIDSet} (h : e.WF) : ParseUUIDSet e.text = some e := by
  obtain ⟨h1, h2, h3, h4⟩ := h
  unfold ParseUUIDSet UUIDSet.text
  rw [splitOn_joinWith ':' _ (by simp)]
  · cases hi : e.Intervals with
    | nil => exact absurd hi h3
    | cons iv rest =>
      simp only [List.map_cons]
      have hm : (Interval.text iv :: List.map Interval.text rest).mapM parseInterval =
          some (iv :: rest) := by
        rw [← List.map_cons]
        apply mapM_map_eq_some
        intro x hx
        exact parseInterval_text x (h4.valid x (hi ▸ hx))
      rw [hm]
      simp only [Option.map_some', Option.some.injEq]
      rw [unionIntervals_nil_normal (hi ▸ h4)]
      cases e
      simp only at hi
      subst hi
      rfl
  · intro p hp
    rcases List.mem_cons.mp hp with hp | hp
    · exact hp ▸ h1
    · obtain ⟨iv, -, rfl⟩ := List.mem_map.mp hp
      exact (intervalText_clean iv).1

/-! ## A set's text reads back -/

theorem AddSet_fresh {s : MysqlGTIDSet} {x : UUIDSet}
    (h : x.SID ∉ s.Sets.map UUIDSet.SID) : s.AddSet x = ⟨s.Sets ++ [x]⟩ := by
  unfold MysqlGTIDSet.AddSet
  rw [if_neg]
  intro hany
  simp only [List.any_eq_true, decide_eq_true_eq] at hany
  obtain ⟨e, he, hsid⟩ := hany
  exact h (hsid ▸ List.mem_map_of_mem _ he)

theorem foldl_AddSet_fresh : ∀ (l : List UUIDSet) (s : MysqlGTIDSet),
    ((s.Sets ++ l).map UUIDSet.SID).Nodup → l.foldl MysqlGTIDSet.AddSet s = ⟨s.Sets ++ l⟩
  | [], s, _ => by simp
  | x :: l, s, h => by
    have hx : x.SID ∉ s.Sets.map UUIDSet.SID := by
      intro hm
      simp only [List.map_append, List.map_cons, List.nodup_append] at h
      exact h.2.2 hm (List.mem_cons_self _ _)
    rw [List.foldl_cons, AddSet_fresh hx, foldl_AddSet_fresh l _ (by simpa using h)]
    simp

theorem Parse_String {s : MysqlGTIDSet} (h : s.WF) :
    ParseMysqlGTIDSet s.String = .ok ⟨sortSets s.Sets⟩ := by
  have hwf : ∀ e ∈ sortSets s.Sets, e.WF :=
    fun e he => h.2 e ((sortSets_perm _).mem_iff.mp he)
  have hnod : ((sortSets s.Sets).map UUIDSet.SID).Nodup :=
    ((sortSets_perm _).map UUIDSet.SID).nodup_iff.mpr h.1
  unfold ParseMysqlGTIDSet MysqlGTIDSet.String
  cases hl : sortSets s.Sets with
  | nil => rfl
  | cons e rest =>
    rw [hl] at hwf hnod
    have hne : joinWith ',' ((e :: rest).map UUIDSet.text) ≠ [] := by
      have he := UUIDSet_text_ne_nil (hwf e (List.mem_cons_self _ _))
      cases rest with
      | nil => simpa [joinWith] using he
      | cons e2 rest2 =>
        simp only [List.map_cons, joinWith]
        intro hnil
        have := congrArg List.length hnil
        simp at this
    rw [if_neg hne, splitOn_joinWith ',' _ (by simp),
      mapM_map_eq_some ParseUUIDSet UUIDSet.text _
        (fun x hx => ParseUUIDSet_text (hwf x hx))]
    · simp only
      rw [foldl_AddSet_fresh _ _ (by simpa using hnod)]
      simp
    · intro p hp
      obtain ⟨x, hx, rfl⟩ := List.mem_map.mp hp
      exact UUIDSet_text_no_comma (hwf x hx)

/-! ## Reconciling well-formed sets gives a well-formed set -/

theorem WF_of_get {s : MysqlGTIDSet} (h : s.WF) {sid : String} {ivs : List Interval}
    (hg : s.get sid = some ivs) : ivs ≠ [] ∧ Normal ivs := by
  have := h.2 _ (mem_of_get_eq_some hg)
  exact ⟨this.2.2.1, this.2.2.2⟩

theorem reconcile_WF {stored live : MysqlGTIDSet} (hs : stored.WF) (hl : live.WF) :
    (reconcile stored live).WF := by
  refine ⟨reconcile_nodupKeys hs.1 hl.1, ?_⟩
  intro e he
  unfold reconcile at he
  rcases List.mem_append.mp he with he | he
  · obtain ⟨x, hx, rfl⟩ := List.mem_map.mp he
    have hxw := hl.2 x hx
    cases hg : stored.get x.SID with
    | none => exact hxw
    | some s =>
      have hsw := WF_of_get hs hg
      exact ⟨hxw.1, hxw.2.1, unionIntervals_ne_nil _ _ (Or.inl hsw.1),
        unionIntervals_normal _ _ hsw.2 hxw.2.2.2.valid⟩
  · exact hs.2 e (List.mem_filter.mp he).1

/-! ## What the parser returns is well-formed -/

theorem splitOn_piece_clean (sep : Char) : ∀ (cs : List Char), ∀ p ∈ splitOn sep cs, sep ∉ p
  | [], p, hp => by
    simp only [splitOn, List.mem_singleton] at hp
    subst hp
    simp
  | c :: cs, p, hp => by
    have ih := splitOn_piece_clean sep cs
    unfold splitOn at hp
    split at hp
    · rcases List.mem_cons.mp hp with hp | hp
      · subst hp; simp
      · exact ih p hp
    · rename_i hc
      split at hp
      · simp only [List.mem_singleton] at hp
        subst hp
        simpa using fun e => hc e.symm
      · rename_i q qs hq
        rcases List.mem_cons.mp hp with hp | hp
        · subst hp
          intro hm
          rcases List.mem_cons.mp hm with hm | hm
          · exact hc hm.symm
          · exact ih q (hq ▸ List.mem_cons_self _ _) hm
        · exact ih p (hq ▸ List.mem_cons_of_mem _ hp)

theorem splitOn_piece_sub (sep : Char) : ∀ (cs : List Char), ∀ p ∈ splitOn sep cs,
    ∀ c ∈ p, c ∈ cs
  | [], p, hp, c, hc => by
    simp only [splitOn, List.mem_singleton] at hp
    subst hp
    cases hc
  | d :: cs, p, hp, c, hc => by
    have ih := splitOn_piece_sub sep cs
    unfold splitOn at hp
    split at hp
    · rcases List.mem_cons.mp hp with hp | hp
      · subst hp; cases hc
      · exact List.mem_cons_of_mem _ (ih p hp c hc)
    · split at hp
      · simp only [List.mem_singleton] at hp
        subst hp
        simp only [List.mem_singleton] at hc
        exact hc ▸ List.mem_cons_self _ _
      · rename_i q qs hq
        rcases List.mem_cons.mp hp with hp | hp
        · subst hp
          rcases List.mem_cons.mp hc with hc | hc
          · exact hc ▸ List.mem_cons_self _ _
          · exact List.mem_cons_of_mem _ (ih q (hq ▸ List.mem_cons_self _ _) c hc)
        · exact List.mem_cons_of_mem _ (ih p (hq ▸ List.mem_cons_of_mem _ hp) c hc)

theorem ParseUUIDSet_WF {cs : List Char} {e : UUIDSet} (hc : ',' ∉ cs)
    (h : ParseUUIDSet cs = some e) : e.WF := by
  unfold ParseUUIDSet at h
  split at h
  · rename_i sid first more hsplit
    cases hm : (first :: more).mapM parseInterval with
    | none => rw [hm] at h; cases h
    | some ivs =>
      rw [hm] at h
      simp only [Option.map_some', Option.some.injEq] at h
      subst h
      obtain ⟨hlen, hall⟩ := mapM_eq_some_forall _ _ _ hm
      have hsid : sid ∈ splitOn ':' cs := hsplit ▸ List.mem_cons_self _ _
      have hvalid : ∀ iv ∈ ivs, iv.start ≤ iv.stop := by
        intro iv hiv
        obtain ⟨x, -, hx⟩ := hall iv hiv
        exact parseInterval_valid hx
      have hne : ivs ≠ [] := by
        intro hnil
        rw [hnil] at hlen
        simp at hlen
      refine ⟨splitOn_piece_clean ':' cs sid hsid, ?_,
        unionIntervals_ne_nil _ _ (Or.inr hne), unionIntervals_normal _ _ trivial hvalid⟩
      intro hm2
      exact hc (splitOn_piece_sub ':' cs sid hsid _ hm2)
  · cases h

theorem AddSet_WF {s : MysqlGTIDSet} (hs : s.WF) {x : UUIDSet} (hx : x.WF) :
    (s.AddSet x).WF := by
  refine ⟨AddSet_nodupKeys hs.1 x, ?_⟩
  intro e he
  unfold MysqlGTIDSet.AddSet at he
  split at he
  · obtain ⟨y, hy, rfl⟩ := List.mem_map.mp he
    have hyw := hs.2 y hy
    split
    · exact ⟨hyw.1, hyw.2.1, unionIntervals_ne_nil _ _ (Or.inl hyw.2.2.1),
        unionIntervals_normal _ _ hyw.2.2.2 hx.2.2.2.valid⟩
    · exact hyw
  · rcases List.mem_append.mp he with he | he
    · exact hs.2 e he
    · simp only [List.mem_singleton] at he
      exact he ▸ hx

theorem foldl_AddSet_WF : ∀ (l : List UUIDSet) (s : MysqlGTIDSet), s.WF →
    (∀ x ∈ l, x.WF) → (l.foldl MysqlGTIDSet.AddSet s).WF
  | [], _, hs, _ => hs
  | x :: l, s, hs, hl =>
    foldl_AddSet_WF l (s.AddSet x) (AddSet_WF hs (hl x (List.mem_cons_self _ _)))
      (fun y hy => hl y (List.mem_cons_of_mem _ hy))

theorem Parse_WF {str : String} {s : MysqlGTIDSet} (h : ParseMysqlGTIDSet str = .ok s) :
    s.WF := by
  unfold ParseMysqlGTIDSet at h
  split at h
  · cases h
    exact ⟨List.nodup_nil, fun e he => by cases he⟩
  · cases hm : (splitOn ',' str.data).mapM ParseUUIDSet with
    | none => rw [hm] at h; cases h
    | some sets =>
      rw [hm] at h
      cases h
      obtain ⟨-, hall⟩ := mapM_eq_some_forall _ _ _ hm
      refine foldl_AddSet_WF _ _ ⟨List.nodup_nil, fun e he => by cases he⟩ ?_
      intro x hx
      obtain ⟨p, hp, hpx⟩ := hall x hx
      exact ParseUUIDSet_WF (splitOn_piece_clean ',' _ p hp) hpx

/-! ## `fixGTID` -/

/-- C1. When the stored GTID text parses to `S` and the live database reports the
GTID set `L` (and its identity), `fixGTID` succeeds and returns the canonical text
of a set that, for every identity, has every interval of `S` and every interval of
`L` inside one of its intervals; an identity that only `S` or only `L` has keeps
its intervals unchanged. When `L` is well-formed, the returned text parses back
to that set. -/
theorem fixGTID_keeps_all_intervals (db : MySQLStatusGetter) (pos : MySQLBinlogPosition)
    (S L : MysqlGTIDSet) (p : Position) (u : String)
    (hS : ParseMysqlGTIDSet pos.BinlogGTID = .ok S)
    (hL : db.GetMasterStatus = .ok (p, L)) (hU : db.GetServerUUID = .ok u) :
    ∃ (q : MySQLBinlogPosition) (fixed : MysqlGTIDSet),
      fixGTID db pos = .ok q ∧ q.BinlogGTID = fixed.String ∧
      (L.WF → ∃ back, ParseMysqlGTIDSet q.BinlogGTID = .ok back ∧
        ∀ sid, back.get sid = fixed.get sid) ∧
      (∀ sid ivs, S.get sid = some ivs →
        ∃ out, fixed.get sid = some out ∧ ∀ iv ∈ ivs, ∃ k ∈ out, iv.within k) ∧
      (∀ sid ivs, L.get sid = some ivs →
        ∃ out, fixed.get sid = some out ∧ ∀ iv ∈ ivs, ∃ k ∈ out, iv.within k) ∧
      (∀ sid, L.get sid = none → fixed.get sid = S.get sid) ∧
      (∀ sid, S.get sid = none → fixed.get sid = L.get sid) := by
  refine ⟨_, reconcile S L, fixGTID_ok db pos S L p u hS hL hU, rfl, ?_, ?_, ?_, ?_, ?_⟩
  · intro hLw
    have hw := reconcile_WF (Parse_WF hS) hLw
    have hn : (⟨sortSets (reconcile S L).Sets⟩ : MysqlGTIDSet).NodupKeys :=
      ((sortSets_perm _).map UUIDSet.SID).nodup_iff.mpr hw.1
    exact ⟨⟨sortSets (reconcile S L).Sets⟩, Parse_String hw,
      same_get_of_perm hn (sortSets_perm _)⟩
  · intro sid ivs hs
    cases hl : L.get sid with
    | none =>
      refine ⟨ivs, by rw [reconcile_get_stored_only S L sid hl, hs], ?_⟩
      intro iv hiv
      exact ⟨iv, hiv, Interval.within_refl _⟩
    | some l =>
      refine ⟨unionIntervals ivs l, by rw [reconcile_get_live S L sid l hl, hs], ?_⟩
      intro iv hiv
      exact unionIntervals_covers l ivs iv (Or.inl hiv)
  · intro sid ivs hl
    cases hs : S.get sid with
    | none =>
      refine ⟨ivs, by rw [reconcile_get_live S L sid ivs hl, hs], ?_⟩
      intro iv hiv
      exact ⟨iv, hiv, Interval.within_refl _⟩
    | some s =>
      refine ⟨unionIntervals s ivs, by rw [reconcile_get_live S L sid ivs hl, hs], ?_⟩
      intro iv hiv
      exact unionIntervals_covers ivs s iv (Or.inr hiv)
  · intro sid hl
    exact reconcile_get_stored_only S L sid hl
  · intro sid hs
    cases hl : L.get sid with
    | none => rw [reconcile_get_stored_only S L sid hl, hs]
    | some l => rw [reconcile_get_live S L sid l hl, hs]

/-- C7. When the live query fails (`GetMasterStatus` or `GetServerUUID` returns an
error), `fixGTID` returns an error and no position. -/
theorem fixGTID_fails_closed (db : MySQLStatusGetter) (pos : MySQLBinlogPosition)
    (h : (∃ err, db.GetMasterStatus = .error err) ∨ (∃ err, db.GetServerUUID = .error err)) :
    (∃ err, fixGTID db pos = .error err) ∧ ∀ q, fixGTID db pos ≠ .ok q := by
  have herr : ∃ err, fixGTID db pos = .error err := by
    unfold fixGTID
    rcases h with ⟨err, h⟩ | ⟨err, h⟩
    · cases hu : db.GetServerUUID with
      | error e2 => exact ⟨_, rfl⟩
      | ok u => simp only [h]; exact ⟨_, rfl⟩
    · simp only [h]; exact ⟨_, rfl⟩
  obtain ⟨err, he⟩ := herr
  refine ⟨⟨err, he⟩, ?_⟩
  intro q hq
  rw [he] at hq
  cases hq

/-- C8. The text `fixGTID` returns depends only on the stored and the live set as
maps: two stored texts that parse to the same map and two databases that report
the same map (whatever the order of their entries) give the same text, and the
text lists the identities of the stored and the live set, each once, in strictly
increasing lexicographic order. -/
theorem fixGTID_text_deterministic (db db2 : MySQLStatusGetter)
    (pos pos2 : MySQLBinlogPosition) (S S2 L L2 : MysqlGTIDSet) (p p2 : Position)
    (u u2 : String)
    (hS : ParseMysqlGTIDSet pos.BinlogGTID = .ok S)
    (hS2 : ParseMysqlGTIDSet pos2.BinlogGTID = .ok S2)
    (hL : db.GetMasterStatus = .ok (p, L)) (hL2 : db2.GetMasterStatus = .ok (p2, L2))
    (hU : db.GetServerUUID = .ok u) (hU2 : db2.GetServerUUID = .ok u2)
    (hLn : L.NodupKeys) (hL2n : L2.NodupKeys)
    (hsame : ∀ sid, S.get sid = S2.get sid) (hlive : ∀ sid, L.get sid = L2.get sid) :
    ∃ (q q2 : MySQLBinlogPosition) (entries : List UUIDSet),
      fixGTID db pos = .ok q ∧ fixGTID db2 pos2 = .ok q2 ∧
      q.BinlogGTID = q2.BinlogGTID ∧
      q.BinlogGTID = ⟨joinWith ',' (entries.map UUIDSet.text)⟩ ∧
      (entries.map (fun e => e.SID.data)).Sorted (fun a b => a < b) ∧
      ∀ sid, sid ∈ entries.map UUIDSet.SID ↔ (S.get sid ≠ none ∨ L.get sid ≠ none) := by
  have hSn := Parse_nodupKeys hS
  have hS2n := Parse_nodupKeys hS2
  have hperm := reconcile_perm hSn hS2n hLn hL2n hsame hlive
  have hnod := reconcile_nodupKeys hSn hLn
  refine ⟨_, _, sortSets (reconcile S L).Sets, fixGTID_ok db pos S L p u hS hL hU,
    fixGTID_ok db2 pos2 S2 L2 p2 u2 hS2 hL2 hU2, ?_, rfl, ?_, ?_⟩
  · show (reconcile S L).String = (reconcile S2 L2).String
    unfold MysqlGTIDSet.String
    rw [sortSets_eq_of_perm hperm hnod]
  · exact List.pairwise_map.mpr (sortSets_strict hnod)
  · intro sid
    rw [((sortSets_perm _).map UUIDSet.SID).mem_iff, reconcile_keys, List.mem_append]
    have e1 : sid ∈ L.Sets.map UUIDSet.SID ↔ L.get sid ≠ none := by
      rw [Ne, get_eq_none_iff, not_not]
    have e2 : sid ∈ S.Sets.map UUIDSet.SID ↔ S.get sid ≠ none := by
      rw [Ne, get_eq_none_iff, not_not]
    constructor
    · rintro (h | h)
      · exact Or.inr (e1.mp h)
      · obtain ⟨e, he, rfl⟩ := List.mem_map.mp h
        exact Or.inl (e2.mp (List.mem_map_of_mem _ (List.mem_filter.mp he).1))
    · rintro (h | h)
      · by_cases hl : L.get sid = none
        · right
          obtain ⟨e, he, rfl⟩ := List.mem_map.mp (e2.mpr h)
          refine List.mem_map_of_mem _ (List.mem_filter.mpr ⟨he, ?_⟩)
          simp [hl]
        · exact Or.inl (e1.mpr hl)
      · exact Or.inl (e1.mpr h)

/-! ## `TestFixGTID` -/

set_option maxRecDepth 100000 in
theorem fixGTID_keeps_all_intervals_witness :
    ParseMysqlGTIDSet testPosition.BinlogGTID = .ok testStored ∧
    fakeDB.GetMasterStatus = .ok (⟨"test", 1⟩, testLive) ∧
    fakeDB.GetServerUUID = .ok master ∧
    (∃ (q : MySQLBinlogPosition) (fixed : MysqlGTIDSet),
      fixGTID fakeDB testPosition = .ok q ∧ q.BinlogGTID = fixed.String ∧
      (testLive.WF → ∃ back, ParseMysqlGTIDSet q.BinlogGTID = .ok back ∧
        ∀ sid, back.get sid = fixed.get sid) ∧
      (∀ sid ivs, testStored.get sid = some ivs →
        ∃ out, fixed.get sid = some out ∧ ∀ iv ∈ ivs, ∃ k ∈ out, iv.within k) ∧
      (∀ sid ivs, testLive.get sid = some ivs →
        ∃ out, fixed.get sid = some out ∧ ∀ iv ∈ ivs, ∃ k ∈ out, iv.within k) ∧
      (∀ sid, testLive.get sid = none → fixed.get sid = testStored.get sid) ∧
      (∀ sid, testStored.get sid = none → fixed.get sid = testLive.get sid)) ∧
    fixGTID fakeDB testPosition =
      .ok ⟨"test", 1, masterGTID ++ "," ++ slave1GTID ++ "," ++ slave2GTID⟩ ∧
    testLive.WF ∧
    ParseMysqlGTIDSet (masterGTID ++ "," ++ slave1GTID ++ "," ++ slave2GTID) =
      .ok ⟨[⟨master, [⟨1, 1000⟩]⟩, ⟨slave1, [⟨1, 4⟩]⟩, ⟨slave2, [⟨1, 45⟩]⟩]⟩ ∧
    masterGTID.data <:+: (masterGTID ++ "," ++ slave1GTID ++ "," ++ slave2GTID).data ∧
    slave1GTID.data <:+: (masterGTID ++ "," ++ slave1GTID ++ "," ++ slave2GTID).data ∧
    slave2GTID.data <:+: (masterGTID ++ "," ++ slave1GTID ++ "," ++ slave2GTID).data :=
  ⟨rfl, rfl, rfl,
    fixGTID_keeps_all_intervals fakeDB testPosition testStored testLive ⟨"test", 1⟩ master
      rfl rfl rfl,
    rfl, by decide, rfl, by decide, by decide, by decide⟩

theorem fixGTID_fails_closed_witness :
    ((∃ err, failingDB.GetMasterStatus = .error err) ∨
      (∃ err, failingDB.GetServerUUID = .error err)) ∧
    ((∃ err, fixGTID failingDB testPosition = .error err) ∧
      ∀ q, fixGTID failingDB testPosition ≠ .ok q) :=
  ⟨Or.inl ⟨_, rfl⟩, fixGTID_fails_closed failingDB testPosition (Or.inl ⟨_, rfl⟩)⟩

theorem fixGTID_text_deterministic_witness :
    ParseMysqlGTIDSet testPosition.BinlogGTID = .ok testStored ∧
    ParseMysqlGTIDSet testPositionSwapped.BinlogGTID = .ok testStoredSwapped ∧
    fakeDB.GetMasterStatus = .ok (⟨"test", 1⟩, testLive) ∧
    fakeDBReordered.GetMasterStatus = .ok (⟨"test", 1⟩, testLiveReordered) ∧
    fakeDB.GetServerUUID = .ok master ∧ fakeDBReordered.GetServerUUID = .ok master ∧
    testLive.NodupKeys ∧ testLiveReordered.NodupKeys ∧
    (∀ sid, testStored.get sid = testStoredSwapped.get sid) ∧
    (∀ sid, testLive.get sid = testLiveReordered.get sid) ∧
    (∃ (q q2 : MySQLBinlogPosition) (entries : List UUIDSet),
      fixGTID fakeDB testPosition = .ok q ∧
      fixGTID fakeDBReordered testPositionSwapped = .ok q2 ∧
      q.BinlogGTID = q2.BinlogGTID ∧
      q.BinlogGTID = ⟨joinWith ',' (entries.map UUIDSet.text)⟩ ∧
      (entries.map (fun e => e.SID.data)).Sorted (fun a b => a < b) ∧
      ∀ sid, sid ∈ entries.map UUIDSet.SID ↔
        (testStored.get sid ≠ none ∨ testLive.get sid ≠ none)) ∧
    fixGTID fakeDBReordered testPositionSwapped =
      .ok ⟨"test", 1, masterGTID ++ "," ++ slave1GTID ++ "," ++ slave2GTID⟩ :=
  ⟨rfl, rfl, rfl, rfl, rfl, rfl, by decide, by decide,
    same_get_of_perm (by decide) (by decide), same_get_of_perm (by decide) (by decide),
    fixGTID_text_deterministic fakeDB fakeDBReordered testPosition testPositionSwapped
      testStored testStoredSwapped testLive testLiveReordered ⟨"test", 1⟩ ⟨"test", 1⟩
      master master rfl rfl rfl rfl rfl rfl (by decide) (by decide)
      (same_get_of_perm (by decide) (by decide)) (same_get_of_perm (by decide) (by decide)),
    rfl⟩

/-! ## The tailer's record loop -/

theorem run_accepted (IsEventBelongsToMySelf : RawRecord → Bool)
    (binlogFilter : String → Bool) :
    ∀ (rs rest : List RawRecord) (t : BinlogTailer fakeMsgSubmitter),
      (∀ r ∈ rs, Accepted IsEventBelongsToMySelf binlogFilter r) →
      BinlogTailer.run IsEventBelongsToMySelf binlogFilter fakeMsgSubmitter.SubmitMsg t
          (rs ++ rest) =
        BinlogTailer.run IsEventBelongsToMySelf binlogFilter fakeMsgSubmitter.SubmitMsg
          { t with submitter := ⟨t.submitter.msgs ++ rs.map RawRecord.toMsg⟩,
                   position := rs.foldl (fun _ r => r.position) t.position } rest
  | [], rest, t, _ => by simp
  | r :: rs, rest, t, h => by
    obtain ⟨⟨op, hk⟩, hmine, hfilter⟩ := h r (List.mem_cons_self _ _)
    have hrest : ∀ x ∈ rs, Accepted IsEventBelongsToMySelf binlogFilter x :=
      fun x hx => h x (List.mem_cons_of_mem _ hx)
    have hmsg : r.toMsg.Type_ = .MsgDML := by simp [RawRecord.toMsg, hk]
    have hstep : BinlogTailer.run IsEventBelongsToMySelf binlogFilter
        fakeMsgSubmitter.SubmitMsg t (r :: (rs ++ rest)) =
        BinlogTailer.run IsEventBelongsToMySelf binlogFilter fakeMsgSubmitter.SubmitMsg
          { t with submitter := ⟨t.submitter.msgs ++ [r.toMsg]⟩, position := r.position }
          (rs ++ rest) := by
      rw [BinlogTailer.run]
      simp only [hk, hmine, hfilter, fakeMsgSubmitter.SubmitMsg, hmsg]
      simp
    rw [List.cons_append, hstep,
      run_accepted IsEventBelongsToMySelf binlogFilter rs rest _ hrest]
    simp only [List.map_cons, List.foldl_cons, List.append_assoc, List.singleton_append]

/-- C2. When the stream holds `N` data-change records that the Origin Checker does
not claim and the Event Filter accepts, followed by the dead signal (and whatever
comes after it), the tailer fires its completion notification without error and
the submitter has recorded exactly the `N` messages of those records, all
`core.MsgDML`, in stream order. -/
theorem TestMsgEmit_receives_all_in_order (IsEventBelongsToMySelf : RawRecord → Bool)
    (binlogFilter : String → Bool) (rs rest : List RawRecord) (dead : RawRecord)
    (start : Nat) (hdead : dead.kind = .deadSignal)
    (hrs : ∀ r ∈ rs, Accepted IsEventBelongsToMySelf binlogFilter r) :
    (BinlogTailer.run IsEventBelongsToMySelf binlogFilter fakeMsgSubmitter.SubmitMsg
        (BinlogTailer.start ⟨[]⟩ start) (rs ++ dead :: rest)).submitter.msgs =
      rs.map RawRecord.toMsg ∧
    (BinlogTailer.run IsEventBelongsToMySelf binlogFilter fakeMsgSubmitter.SubmitMsg
        (BinlogTailer.start ⟨[]⟩ start) (rs ++ dead :: rest)).submitter.msgs.length =
      rs.length ∧
    (∀ m ∈ (BinlogTailer.run IsEventBelongsToMySelf binlogFilter fakeMsgSubmitter.SubmitMsg
        (BinlogTailer.start ⟨[]⟩ start) (rs ++ dead :: rest)).submitter.msgs,
      m.Type_ = .MsgDML) ∧
    (BinlogTailer.run IsEventBelongsToMySelf binlogFilter fakeMsgSubmitter.SubmitMsg
        (BinlogTailer.start ⟨[]⟩ start) (rs ++ dead :: rest)).done = true ∧
    (BinlogTailer.run IsEventBelongsToMySelf binlogFilter fakeMsgSubmitter.SubmitMsg
        (BinlogTailer.start ⟨[]⟩ start) (rs ++ dead :: rest)).err = none := by
  rw [run_accepted IsEventBelongsToMySelf binlogFilter rs (dead :: rest) _ hrs]
  simp only [BinlogTailer.run, hdead, BinlogTailer.start, List.nil_append, List.length_map,
    true_and, and_true]
  intro m hm
  obtain ⟨r, hr, rfl⟩ := List.mem_map.mp hm
  obtain ⟨⟨op, hk⟩, -, -⟩ := hrs r hr
  simp [RawRecord.toMsg, hk]

theorem TestMsgEmit_receives_all_in_order_witness :
    testDeadSignal.kind = .deadSignal ∧
    (∀ r ∈ testStream, Accepted (fun _ => false) binlogFilter r) ∧
    ((BinlogTailer.run (fun _ => false) binlogFilter fakeMsgSubmitter.SubmitMsg
        (BinlogTailer.start ⟨[]⟩ 0) (testStream ++ testDeadSignal :: [])).submitter.msgs =
      testStream.map RawRecord.toMsg ∧
    (BinlogTailer.run (fun _ => false) binlogFilter fakeMsgSubmitter.SubmitMsg
        (BinlogTailer.start ⟨[]⟩ 0) (testStream ++ testDeadSignal :: [])).submitter.msgs.length =
      testStream.length ∧
    (∀ m ∈ (BinlogTailer.run (fun _ => false) binlogFilter fakeMsgSubmitter.SubmitMsg
        (BinlogTailer.start ⟨[]⟩ 0) (testStream ++ testDeadSignal :: [])).submitter.msgs,
      m.Type_ = .MsgDML) ∧
    (BinlogTailer.run (fun _ => false) binlogFilter fakeMsgSubmitter.SubmitMsg
        (BinlogTailer.start ⟨[]⟩ 0) (testStream ++ testDeadSignal :: [])).done = true ∧
    (BinlogTailer.run (fun _ => false) binlogFilter fakeMsgSubmitter.SubmitMsg
        (BinlogTailer.start ⟨[]⟩ 0) (testStream ++ testDeadSignal :: [])).err = none) ∧
    testStream.length = 5 :=
  ⟨rfl,
    by
      intro r hr
      simp only [testStream, List.mem_cons, List.mem_singleton, List.not_mem_nil, or_false] at hr
      rcases hr with rfl | rfl | rfl | rfl | rfl <;>
        exact ⟨⟨_, rfl⟩, rfl, by decide⟩,
    TestMsgEmit_receives_all_in_order (fun _ => false) binlogFilter testStream [] testDeadSignal 0
      rfl (by
        intro r hr
        simp only [testStream, List.mem_cons, List.mem_singleton, List.not_mem_nil,
          or_false] at hr
        rcases hr with rfl | rfl | rfl | rfl | rfl <;>
          exact ⟨⟨_, rfl⟩, rfl, by decide⟩),
    rfl⟩

end mysqlstream
